import Mathlib

/-!
# Composition-note collector: a shallow embedding

This file embeds the composition-note collection code of the repository
(`getUnitCompNotes`, `getArmyCompNotes`, `getAllArmyCompNotes`,
`generateCompNotesHTML` and the helpers `extractName` / `addCompNote`)
into Lean 4 and proves the specified properties about it.

JavaScript values are modelled by the inductive type `JSValue` (JSON-like
values plus `undefined`).  Property access on `null`/`undefined` throws a
`TypeError`; this and every other throwing operation is modelled with
`Except Unit`.  The collector's `compNotes` is a JS `Set`, i.e. an
insertion-ordered collection of unique strings; since the arguments passed
to `Set.add` during a run never depend on the current contents of the set,
a run is modelled as the ordered trace of `add` arguments, deduplicated to
first occurrences (`dedupF`), which is exactly JS `Set` insertion
semantics.
-/

deriving instance DecidableEq for Except

/-- JS `.toLowerCase()` (ASCII case mapping, which covers every key the
rules data uses). -/
def sLower (s : String) : String := String.mk (s.data.map Char.toLower)

def wsChar (c : Char) : Bool := c.isWhitespace

def trimChars (l : List Char) : List Char :=
  ((l.dropWhile wsChar).reverse.dropWhile wsChar).reverse

/-- JS `.trim()`: remove leading and trailing whitespace. -/
def sTrim (s : String) : String := String.mk (trimChars s.data)

def splitCommaAux : List Char → List Char → List (List Char)
  | [], cur => [cur.reverse]
  | c :: cs, cur =>
      if c = ',' then cur.reverse :: splitCommaAux cs []
      else splitCommaAux cs (c :: cur)

/-- JS `.split(',')` (`"".split(',')` is `[""]`). -/
def sSplitComma (s : String) : List String := (splitCommaAux s.data []).map String.mk

/-- A JSON-like JavaScript value (plus `undefined`). -/
inductive JSValue where
  | undef
  | null
  | bool (b : Bool)
  | num (n : Int)
  | str (s : String)
  | arr (elems : List JSValue)
  | obj (fields : List (String × JSValue))

/-- JS truthiness: `undefined`, `null`, `false`, `0` and `""` are falsy;
every object (including `[]` and `{}`) is truthy. -/
def jsTruthy : JSValue → Bool
  | .undef => false
  | .null => false
  | .bool b => b
  | .num n => n != 0
  | .str s => s != ""
  | .arr _ => true
  | .obj _ => true

/-- Property read on a value known not to be `null`/`undefined`: on an
object, the value stored under the key (first binding wins), otherwise
`undefined`; primitives and arrays have none of the properties the code
reads, so the read yields `undefined`. -/
def getFieldD : JSValue → String → JSValue
  | .obj fields, k =>
      match fields.find? (fun p => p.1 = k) with
      | some p => p.2
      | none => .undef
  | _, _ => (.undef)

/-- Property read `v[k]`: throws a `TypeError` when `v` is `null` or
`undefined`, otherwise reads the property. -/
def jsGet (v : JSValue) (k : String) : Except Unit JSValue :=
  match v with
  | .null => .error ()
  | .undef => .error ()
  | _ => .ok (getFieldD v k)

/-- `true` unless the value is `null`/`undefined` (i.e. property reads on
it succeed). -/
def notNullish : JSValue → Bool
  | .null => false
  | .undef => false
  | _ => true

/-- First field among `ks` whose value is truthy, as in the chain of
`if (item.name_en) return item.name_en; ...` checks of `extractName`. -/
def firstTruthyField (item : JSValue) : List String → Option JSValue
  | [] => none
  | k :: ks =>
      if jsTruthy (getFieldD item k) then some (getFieldD item k)
      else firstTruthyField item ks

/-- The name properties probed by `extractName`, in source order. -/
def nameFields : List String :=
  ["name_en", "name_cn", "name_de", "name_es", "name_fr", "name_it", "name"]

/-- `extractName(item)` of `src/unnamed/part_001`: `null` for a falsy
item; a (necessarily non-empty) string is returned unchanged; on an object
the first truthy name property is returned; anything else yields `null`.
(An array has `typeof 'object'` in JS but none of the name properties, so
it also falls through to `null`.) -/
def extractName (item : JSValue) : Option JSValue :=
  if jsTruthy item then
    match item with
    | .str _ => some item
    | .obj _ => firstTruthyField item nameFields
    | _ => none
  else none

/-- Removal of every literal `\x7b` / `\x7d` character, modelling
`.replace(/[{}]/g, '')`. -/
def removeBraces (s : String) : String :=
  String.mk (s.data.filter (fun c => c != '\x7b' && c != '\x7d'))

/-- The canonical lookup key of `addCompNote`:
`ruleName.toLowerCase().trim().replace(/[{}]/g, '')`. -/
def canonKey (s : String) : String :=
  removeBraces (sTrim (sLower s))

/-- An entry of the rules dictionary; the collector only reads its
(optional, free-text) `compNote`. -/
structure RuleEntry where
  compNote : Option String
deriving DecidableEq

/-- The rules dictionary `rulesMap`: a key → entry mapping, modelled as an
association list (first binding wins, as JS object keys are unique). -/
abbrev RulesMap := List (String × RuleEntry)

/-- `rulesMap[k]`. -/
def lookupEntry (rm : RulesMap) (k : String) : Option RuleEntry :=
  (rm.find? (fun p => p.1 = k)).map (fun p => p.2)

/-- The note the dictionary contributes under key `k`:
`rulesMap[k]?.compNote` when truthy (a present but empty note string is
falsy in JS, hence contributes nothing). -/
def lookupNote (rm : RulesMap) (k : String) : Option String :=
  match lookupEntry rm k with
  | some e =>
      match e.compNote with
      | some n => if n = "" then none else some n
      | none => none
  | none => none

/-! All dictionary access in the collector goes through
`lookupNote rm`; the section functions below therefore take the lookup
function `look : String → Option String` and the collector instantiates
it with `lookupNote rm`. -/

/-- Body of `addCompNote` on an already-string rule name: skip the falsy
empty string, canonicalize, look up, contribute the note when present. -/
def addCompNoteStr (look : String → Option String) (s : String) : List String :=
  if s = "" then []
  else
    match look (canonKey s) with
    | some n => [n]
    | none => []

/-- `addCompNote(ruleName)` of `src/unnamed/part_001`: a falsy argument
returns at once; `.toLowerCase()` on a truthy non-string throws. -/
def addCompNote (look : String → Option String) (v : JSValue) : Except Unit (List String) :=
  match v with
  | .str s => .ok (addCompNoteStr look s)
  | _ => if jsTruthy v then .error () else .ok []

/-- The `const n = extractName(x); if (n) addCompNote(n);` pattern. -/
def tryAddName (look : String → Option String) (item : JSValue) : Except Unit (List String) :=
  match extractName item with
  | some n => addCompNote look n
  | none => .ok []

/-- `ruleName.split(',').map(r => r.trim())`. -/
def splitSegments (s : String) : List String :=
  (sSplitComma s).map sTrim

/-- The split-on-comma-and-add pattern applied to a truthy resolved name:
`.split` on a non-string throws. -/
def addCommaSplit (look : String → Option String) (v : JSValue) : Except Unit (List String) :=
  match v with
  | .str s => .ok ((splitSegments s).flatMap (addCompNoteStr look))
  | _ => .error ()

/-- `forEach` over elements, concatenating the notes each contributes. -/
def collectM (f : JSValue → Except Unit (List String)) (xs : List JSValue) :
    Except Unit (List String) :=
  xs.foldlM (fun acc x => do pure (acc ++ (← f x))) []

/-- `const unitName = extractName(unit); if (unitName) addCompNote(unitName);` -/
def notesUnitName (look : String → Option String) (unit : JSValue) : Except Unit (List String) :=
  tryAddName look unit

/-- The `mount` block on the field's value:
`if (unit.mount) { const n = extractName(unit.mount); if (n) addCompNote(n); }` -/
def mountField (look : String → Option String) (m : JSValue) : Except Unit (List String) :=
  if jsTruthy m then tryAddName look m else .ok []

/-- The `specialRules` block on the field's value: an array is traversed
element-wise, anything else truthy is treated as a single entry; each
resolved name is split on commas and every trimmed segment is added
separately. -/
def specialRulesField (look : String → Option String) (sr : JSValue) :
    Except Unit (List String) :=
  if jsTruthy sr then
    match sr with
    | .arr rules =>
        rules.foldlM (fun acc r =>
          match extractName r with
          | some n => do pure (acc ++ (← addCommaSplit look n))
          | none => pure acc) []
    | _ =>
        match extractName sr with
        | some n => addCommaSplit look n
        | none => pure []
  else .ok []

/-- The `field && Array.isArray(field)` + `forEach`/`extractName` pattern
shared by `weapons`, `magicItems` and `options`, on the field's value. -/
def resolveSeqField (look : String → Option String) (w : JSValue) : Except Unit (List String) :=
  match w with
  | .arr xs => collectM (tryAddName look) xs
  | _ => .ok []

/-- One equipment display name: braces were already removed from the whole
string; split on comma, lower-case and trim each segment, then look each
segment up directly, contributing its note when the segment is non-empty
and the note truthy. -/
def equipNoteSegs (look : String → Option String) (itemName : String) : List String :=
  ((sSplitComma itemName).map (fun i => sTrim (sLower i))).flatMap (fun normalized =>
    if normalized = "" then []
    else
      match look normalized with
      | some n => [n]
      | none => [])

/-- The `equipment` block on the field's value:
`if (unit.equipment) unit.equipment.forEach(...)` — no array check, so a
truthy non-array throws; inactive items are skipped; the display name is
`item.name_en?.replace(/[{}]/g,'') || ''` (so `.replace` on a truthy
non-string name throws). -/
def equipmentField (look : String → Option String) (e : JSValue) : Except Unit (List String) :=
  if jsTruthy e then
    match e with
    | .arr xs =>
        xs.foldlM (fun acc item => do
          let act ← jsGet item "active"
          if jsTruthy act then do
            let ne ← jsGet item "name_en"
            match ne with
            | .str s => pure (acc ++ equipNoteSegs look (removeBraces s))
            | .undef => pure (acc ++ equipNoteSegs look "")
            | .null => pure (acc ++ equipNoteSegs look "")
            | _ => .error ()
          else pure acc) []
    | _ => .error ()
  else .ok []

/-- The `items` block on the field's value: for each category with a
`selected` array, add each selected element's resolved name. -/
def itemsField (look : String → Option String) (it : JSValue) : Except Unit (List String) :=
  match it with
  | .arr cats =>
      cats.foldlM (fun acc cat => do
        let sel ← jsGet cat "selected"
        match sel with
        | .arr xs => do pure (acc ++ (← collectM (tryAddName look) xs))
        | _ => pure acc) []
  | _ => .ok []

/-- The `armor` block on the field's value: an array is traversed
element-wise, any other truthy value is resolved and added as a single
name. -/
def armorField (look : String → Option String) (a : JSValue) : Except Unit (List String) :=
  if jsTruthy a then
    match a with
    | .arr xs => collectM (tryAddName look) xs
    | _ => tryAddName look a
  else .ok []

/-- The `mounts` block on the field's value:
`if (unit.mounts) unit.mounts.forEach(...)` — no array check, so a truthy
non-array throws; inactive mounts are skipped;
`mount.name_en?.toLowerCase().trim().replace(/[{}]/g,'')` is looked up
directly (an absent `name_en` leaves `normalized` as `undefined`, and
`rulesMap[undefined]` reads the property named `"undefined"`). -/
def mountsField (look : String → Option String) (m : JSValue) : Except Unit (List String) :=
  if jsTruthy m then
    match m with
    | .arr xs =>
        xs.foldlM (fun acc mount => do
          let act ← jsGet mount "active"
          if jsTruthy act then do
            let ne ← jsGet mount "name_en"
            match ne with
            | .str s =>
                match look (canonKey s) with
                | some n => pure (acc ++ [n])
                | none => pure acc
            | .undef =>
                match look "undefined" with
                | some n => pure (acc ++ [n])
                | none => pure acc
            | .null =>
                match look "undefined" with
                | some n => pure (acc ++ [n])
                | none => pure acc
            | _ => .error ()
          else pure acc) []
    | _ => .error ()
  else .ok []

/-- First `command` block on the field's value: for each active command
item, resolve its name and add each trimmed comma-segment. -/
def commandField1 (look : String → Option String) (c : JSValue) : Except Unit (List String) :=
  match c with
  | .arr xs =>
      xs.foldlM (fun acc ci => do
        let act ← jsGet ci "active"
        if jsTruthy act then
          match extractName ci with
          | some n => do pure (acc ++ (← addCommaSplit look n))
          | none => pure acc
        else pure acc) []
  | _ => .ok []

/-- Second `command` block on the field's value: for each active command
item carrying a `magic.selected` array, add each selected element's
resolved name. -/
def commandField2 (look : String → Option String) (c : JSValue) : Except Unit (List String) :=
  match c with
  | .arr xs =>
      xs.foldlM (fun acc ci => do
        let act ← jsGet ci "active"
        if jsTruthy act then do
          let mg ← jsGet ci "magic"
          if jsTruthy mg then do
            let sel ← jsGet mg "selected"
            match sel with
            | .arr ys => do pure (acc ++ (← collectM (tryAddName look) ys))
            | _ => pure acc
          else pure acc
        else pure acc) []
  | _ => .ok []

/-- The ordered trace of all arguments passed to `compNotes.add` during a
run of `getUnitCompNotes` of `src/unnamed/part_001`, section by section in
source order; each section reads its field (throwing on a nullish unit)
and processes the field's value. -/
def getUnitNoteTrace (unit : JSValue) (rm : RulesMap) : Except Unit (List String) := do
  let look := lookupNote rm
  let n1 ← notesUnitName look unit
  let n2 ← mountField look (← jsGet unit "mount")
  let n3 ← specialRulesField look (← jsGet unit "specialRules")
  let n4 ← resolveSeqField look (← jsGet unit "weapons")
  let n5 ← equipmentField look (← jsGet unit "equipment")
  let n6 ← resolveSeqField look (← jsGet unit "magicItems")
  let n7 ← itemsField look (← jsGet unit "items")
  let n8 ← armorField look (← jsGet unit "armor")
  let n9 ← resolveSeqField look (← jsGet unit "options")
  let n10 ← mountsField look (← jsGet unit "mounts")
  let n11 ← commandField1 look (← jsGet unit "command")
  let n12 ← commandField2 look (← jsGet unit "command")
  pure (n1 ++ n2 ++ n3 ++ n4 ++ n5 ++ n6 ++ n7 ++ n8 ++ n9 ++ n10 ++ n11 ++ n12)


/-- Insertion into a JS `Set` viewed as its insertion-ordered element
list. -/
def insertNote (st : List String) (n : String) : List String :=
  if n ∈ st then st else st ++ [n]

/-- `Array.from` of the `Set` built by adding the elements of `l` in
order: first occurrences, in first-insertion order. -/
def dedupF (l : List String) : List String :=
  l.foldl insertNote []

/-- `getUnitCompNotes(unit, rulesMap)` of `src/unnamed/part_001`:
`Array.from(compNotes)` for the set built along the trace. -/
def getUnitCompNotes (unit : JSValue) (rm : RulesMap) : Except Unit (List String) :=
  (getUnitNoteTrace unit rm).map dedupF

/-! ## The older, simpler collector (`src/src/utils/comp-notes-handler.js`)

Its `addCompNote` does not strip braces, its field handlers detect shapes
inline (`typeof x === 'string'` / `x.name`) instead of calling
`extractName`, it never splits on commas, and it has no `items`, `mounts`
or `command` handling. -/

/-- Lookup key of the simpler `addCompNote`: `toLowerCase().trim()` only. -/
def canonKeySimple (s : String) : String := sTrim (sLower s)

def addCompNoteStrS (look : String → Option String) (s : String) : List String :=
  if s = "" then []
  else
    match look (canonKeySimple s) with
    | some n => [n]
    | none => []

/-- `addCompNote(ruleName)` of the simpler handler. -/
def addCompNoteS (look : String → Option String) (v : JSValue) : Except Unit (List String) :=
  match v with
  | .str s => .ok (addCompNoteStrS look s)
  | _ => if jsTruthy v then .error () else .ok []

/-- `if (typeof x === 'string') addCompNote(x); else if (x.name) addCompNote(x.name);` -/
def tryAddNameS (look : String → Option String) (x : JSValue) : Except Unit (List String) :=
  match x with
  | .str _ => addCompNoteS look x
  | _ => do
      let n ← jsGet x "name"
      if jsTruthy n then addCompNoteS look n else pure []

/-- `if (unit.name) addCompNote(unit.name);` -/
def sNotesName (look : String → Option String) (unit : JSValue) : Except Unit (List String) := do
  let n ← jsGet unit "name"
  if jsTruthy n then addCompNoteS look n else pure []

/-- `if (unit.mount) addCompNote(unit.mount);` -/
def sNotesMount (look : String → Option String) (unit : JSValue) : Except Unit (List String) := do
  let m ← jsGet unit "mount"
  if jsTruthy m then addCompNoteS look m else pure []

/-- The `field && Array.isArray(field)` + `forEach` pattern shared by
`specialRules`, `weapons`, `equipment`, `magicItems` and `options` in the
simpler handler. -/
def sNotesSeq (look : String → Option String) (unit : JSValue) (k : String) :
    Except Unit (List String) := do
  let w ← jsGet unit k
  match w with
  | .arr xs => collectM (tryAddNameS look) xs
  | _ => pure []

/-- The simpler handler's `armor` block: a string is added directly, an
array element-wise, any other truthy shape is ignored. -/
def sNotesArmor (look : String → Option String) (unit : JSValue) : Except Unit (List String) := do
  let a ← jsGet unit "armor"
  if jsTruthy a then
    match a with
    | .str _ => addCompNoteS look a
    | .arr xs => collectM (tryAddNameS look) xs
    | _ => pure []
  else pure []

/-- Trace of `compNotes.add` arguments of the simpler
`getUnitCompNotes`, section by section in source order. -/
def getUnitNoteTraceSimple (unit : JSValue) (rm : RulesMap) : Except Unit (List String) := do
  let look := lookupNote rm
  let n1 ← sNotesName look unit
  let n2 ← sNotesMount look unit
  let n3 ← sNotesSeq look unit "specialRules"
  let n4 ← sNotesSeq look unit "weapons"
  let n5 ← sNotesSeq look unit "equipment"
  let n6 ← sNotesSeq look unit "magicItems"
  let n7 ← sNotesArmor look unit
  let n8 ← sNotesSeq look unit "options"
  pure (n1 ++ n2 ++ n3 ++ n4 ++ n5 ++ n6 ++ n7 ++ n8)

/-- `getUnitCompNotes(unit, rulesMap)` of
`src/src/utils/comp-notes-handler.js`. -/
def getUnitCompNotesSimple (unit : JSValue) (rm : RulesMap) : Except Unit (List String) :=
  (getUnitNoteTraceSimple unit rm).map dedupF

/-! ## Formatting and the batch entry points (`src/unnamed/part_001`) -/

/-- `generateCompNotesHTML(compNotes)`: the empty string for no notes,
otherwise the template fragment with the notes joined by `", "`. -/
def generateCompNotesHTML (compNotes : List String) : String :=
  if compNotes.isEmpty then ""
  else
    "\n    <div class=\"comp-notes-section\">\n      <h4>Comp Notes</h4>\n      <p>"
      ++ String.intercalate ", " compNotes ++
    "</p>\n    </div>\n  "

mutual

/-- JS `ToString` of a property-key value (`result[unit.id || index]`
coerces the key to a string). -/
def jsToStr : JSValue → String
  | .undef => "undefined"
  | .null => "null"
  | .bool b => cond b "true" "false"
  | .num n => toString n
  | .str s => s
  | .arr xs => jsArrToStr xs
  | .obj _ => "[object Object]"

/-- `Array.prototype.toString`: elements joined by `","`, with `null` and
`undefined` elements rendered empty. -/
def jsArrToStr : List JSValue → String
  | [] => ""
  | [x] => jsElemStr x
  | x :: xs => jsElemStr x ++ "," ++ jsArrToStr xs

def jsElemStr : JSValue → String
  | .null => ""
  | .undef => ""
  | v => jsToStr v

end

/-- One unit's entry in the `getArmyCompNotes` result: its notes and
their rendered fragment. -/
abbrev ArmyEntry := List String × String

/-- JS object property assignment `result[k] = v`: overwrite in place if
the key exists, else append. -/
def objAssign (l : List (String × ArmyEntry)) (k : String) (v : ArmyEntry) :
    List (String × ArmyEntry) :=
  if l.any (fun p => p.1 = k) then l.map (fun p => if p.1 = k then (k, v) else p)
  else l ++ [(k, v)]

/-- The `army.forEach((unit, index) => ...)` loop of `getArmyCompNotes`:
units contributing no notes are skipped; otherwise the entry is stored
under `unit.id || index` (coerced to a property key). -/
def armyNotesGo (rm : RulesMap) : Nat → List JSValue → List (String × ArmyEntry) →
    Except Unit (List (String × ArmyEntry))
  | _, [], acc => .ok acc
  | i, u :: us, acc => do
      let ns ← getUnitCompNotes u rm
      if ns.isEmpty then armyNotesGo rm (i + 1) us acc
      else do
        let idv ← jsGet u "id"
        let key := jsToStr (if jsTruthy idv then idv else .num (Int.ofNat i))
        armyNotesGo rm (i + 1) us (objAssign acc key (ns, generateCompNotesHTML ns))

/-- `getArmyCompNotes(army, rulesMap)` of `src/unnamed/part_001`: the
empty mapping for a non-array input. -/
def getArmyCompNotes (army : JSValue) (rm : RulesMap) :
    Except Unit (List (String × ArmyEntry)) :=
  match army with
  | .arr units => armyNotesGo rm 0 units []
  | _ => .ok []

/-- Lexicographic comparison of character lists by code point, modelling
the string comparison used by JS `Array.prototype.sort()`'s default
comparator. -/
def charListLeB : List Char → List Char → Bool
  | [], _ => true
  | _ :: _, [] => false
  | a :: as, b :: bs =>
      if a.toNat < b.toNat then true
      else if b.toNat < a.toNat then false
      else charListLeB as bs

/-- The ascending string order of JS `.sort()` without a comparator. -/
def jsStrLe (s t : String) : Prop := charListLeB s.data t.data = true

instance : DecidableRel jsStrLe := fun s t => by
  unfold jsStrLe; infer_instance

/-- The `army.forEach` loop of `getAllArmyCompNotes`, accumulating every
unit's notes into one set. -/
def allArmyGo (rm : RulesMap) : List JSValue → List String → Except Unit (List String)
  | [], acc => .ok acc
  | u :: us, acc => do
      let ns ← getUnitCompNotes u rm
      allArmyGo rm us (ns.foldl insertNote acc)

/-- `getAllArmyCompNotes(army, rulesMap)` of `src/unnamed/part_001`:
`Array.from(allNotes).sort()` — the accumulated set, sorted ascending by
the default string comparison. -/
def getAllArmyCompNotes (army : JSValue) (rm : RulesMap) : Except Unit (List String) :=
  match army with
  | .arr units => (allArmyGo rm units []).map (List.insertionSort jsStrLe)
  | _ => .ok []

/-! ## Auxiliary notions used by the stated properties -/

def firstOccurAux : List String → List String → List String
  | [], _ => []
  | x :: t, seen =>
      if x ∈ seen then firstOccurAux t seen else x :: firstOccurAux t (x :: seen)

/-- The first occurrence of each string of `l`, in order of first
occurrence. -/
def firstOccur (l : List String) : List String := firstOccurAux l []

def setAssocFirst : List (String × JSValue) → String → JSValue → List (String × JSValue)
  | [], _, _ => []
  | (k', v') :: rest, k, nv =>
      if k' = k then (k', nv) :: rest else (k', v') :: setAssocFirst rest k nv

/-- Replace the value stored under `k` in an object (no-op on a non-object
or when the key is absent); used to state how a unit changes when one of
its fields is replaced. -/
def setFieldFirst : JSValue → String → JSValue → JSValue
  | .obj fs, k, nv => .obj (setAssocFirst fs k nv)
  | v, _, _ => v

/-- `extractName` yields a string or nothing on this value (the shapes the
data model documents; a truthy non-string resolved name makes the code
throw). -/
def resolvesToStrOrNone (v : JSValue) : Bool :=
  match extractName v with
  | some (.str _) => true
  | some _ => false
  | none => true

/-- Shape of the sequence fields traversed with `extractName`
(`weapons`, `magicItems`, `options`): when an array, every element
resolves to a string or nothing. -/
def seqResolvable (v : JSValue) : Bool :=
  match v with
  | .arr xs => xs.all resolvesToStrOrNone
  | _ => true

def strOrNullish : JSValue → Bool
  | .str _ => true
  | .null => true
  | .undef => true
  | _ => false

/-- Shape of one `equipment`/`mounts` element: property reads on it
succeed, and when it is active its `name_en` is absent or a string. -/
def wellShapedActiveItem (item : JSValue) : Bool :=
  notNullish item &&
    (!jsTruthy (getFieldD item "active") || strOrNullish (getFieldD item "name_en"))

/-- Shape of the `equipment`/`mounts` field: falsy, or an array of
well-shaped elements (the code calls `.forEach` on any truthy value, so a
truthy non-array throws). -/
def activeSeqShaped (v : JSValue) : Bool :=
  !jsTruthy v ||
    (match v with
     | .arr xs => xs.all wellShapedActiveItem
     | _ => false)

/-- Shape of the `specialRules`/`armor` field: falsy, an array of
resolvable elements, or a single resolvable value. -/
def resolvableSeqOrOne (v : JSValue) : Bool :=
  !jsTruthy v ||
    (match v with
     | .arr xs => xs.all resolvesToStrOrNone
     | _ => resolvesToStrOrNone v)

/-- Shape of the `items` field: when an array, each category admits
property reads and any `selected` array holds resolvable elements. -/
def itemsShaped (v : JSValue) : Bool :=
  match v with
  | .arr cats =>
      cats.all (fun cat =>
        notNullish cat &&
          (match getFieldD cat "selected" with
           | .arr xs => xs.all resolvesToStrOrNone
           | _ => true))
  | _ => true

/-- Shape of one `command` element: property reads succeed, and when it is
active it resolves to a string or nothing and any `magic.selected` array
holds resolvable elements. -/
def wellShapedCommandItem (ci : JSValue) : Bool :=
  notNullish ci &&
    (!jsTruthy (getFieldD ci "active") ||
      (resolvesToStrOrNone ci &&
        (!jsTruthy (getFieldD ci "magic") ||
          (match getFieldD (getFieldD ci "magic") "selected" with
           | .arr ys => ys.all resolvesToStrOrNone
           | _ => true))))

/-- Shape of the `command` field: only arrays are traversed. -/
def commandShaped (v : JSValue) : Bool :=
  match v with
  | .arr xs => xs.all wellShapedCommandItem
  | _ => true

/-- A unit record whose fields all have one of the shapes the data model
documents; the amended totality property holds for exactly this space. -/
def WellShapedUnit (unit : JSValue) : Bool :=
  notNullish unit &&
  resolvesToStrOrNone unit &&
  resolvesToStrOrNone (getFieldD unit "mount") &&
  resolvableSeqOrOne (getFieldD unit "specialRules") &&
  seqResolvable (getFieldD unit "weapons") &&
  activeSeqShaped (getFieldD unit "equipment") &&
  seqResolvable (getFieldD unit "magicItems") &&
  itemsShaped (getFieldD unit "items") &&
  resolvableSeqOrOne (getFieldD unit "armor") &&
  seqResolvable (getFieldD unit "options") &&
  activeSeqShaped (getFieldD unit "mounts") &&
  commandShaped (getFieldD unit "command")

/-! Spec-side restatements (worded from the specification, for comparison
with the code-side definitions). -/

/-- Spec wording: a populated (non-empty) string stored under `k`. -/
def specFieldStr (item : JSValue) (k : String) : Option String :=
  match item with
  | .obj fs =>
      match fs.find? (fun p => p.1 = k) with
      | some (_, .str s) => if s = "" then none else some s
      | _ => none
  | _ => none

/-- Spec wording of `resolveName`: a plain string is returned unchanged
(an empty one is absent); for a name-bearing object the first populated
field among `name_en`, `name_cn`, `name_de`, `name_es`, `name_fr`,
`name_it`, then plain `name`, is taken; anything else is absent. -/
def specResolveName (item : JSValue) : Option String :=
  match item with
  | .str s => if s = "" then none else some s
  | .obj _ =>
      (specFieldStr item "name_en").orElse fun _ =>
      (specFieldStr item "name_cn").orElse fun _ =>
      (specFieldStr item "name_de").orElse fun _ =>
      (specFieldStr item "name_es").orElse fun _ =>
      (specFieldStr item "name_fr").orElse fun _ =>
      (specFieldStr item "name_it").orElse fun _ =>
      specFieldStr item "name"
  | _ => none

/-- Spec wording of `canonicalize`: lower-case, trim leading/trailing
whitespace, remove every literal `\x7b`/`\x7d`. -/
def specCanonicalize (s : String) : String :=
  String.mk ((sTrim (sLower s)).data.filter (fun c => c != '\x7b' && c != '\x7d'))

/-- Spec wording of the `tryAdd` step: skip an absent resolved name; look
the canonicalized key up; insert the note when the dictionary entry and
its (meaningful, i.e. non-empty) composition note are present. -/
def specTryAdd (rm : RulesMap) (item : JSValue) : List String :=
  match specResolveName item with
  | none => []
  | some s =>
      match lookupEntry rm (specCanonicalize s) with
      | some e =>
          match e.compNote with
          | some n => if n = "" then [] else [n]
          | none => []
      | none => []

/-- What the claimed `specialRules` treatment contributes for one entry:
resolve, split on commas, trim, look each segment up independently. -/
def claimRuleSegments (look : String → Option String) (v : JSValue) : List String :=
  match extractName v with
  | some (.str s) => ((sSplitComma s).map sTrim).flatMap (addCompNoteStr look)
  | _ => []

/-- What the claimed `specialRules` treatment contributes for the whole
field: element-wise over an array, once for a single truthy value. -/
def claimSpecialRulesNotes (look : String → Option String) (sr : JSValue) : List String :=
  if jsTruthy sr then
    match sr with
    | .arr xs => xs.flatMap (claimRuleSegments look)
    | _ => claimRuleSegments look sr
  else []

/-- The property key `getArmyCompNotes` stores a contributing unit under:
`unit.id || index`, coerced to a string. -/
def keyOfD (u : JSValue) (i : Nat) : String :=
  jsToStr (if jsTruthy (getFieldD u "id") then getFieldD u "id" else .num (Int.ofNat i))

/-! ## Properties of set insertion and first-occurrence deduplication -/

theorem insertNote_mem {st : List String} {n x : String} :
    x ∈ insertNote st n ↔ x ∈ st ∨ x = n := by
  unfold insertNote
  by_cases h : n ∈ st
  · simp only [if_pos h]
    constructor
    · exact Or.inl
    · rintro (hx | rfl)
      · exact hx
      · exact h
  · simp [if_neg h]

theorem foldl_insertNote_mem :
    ∀ (t st : List String) (x : String),
      x ∈ t.foldl insertNote st ↔ x ∈ st ∨ x ∈ t := by
  intro t
  induction t with
  | nil => simp
  | cons a t ih =>
    intro st x
    simp only [List.foldl_cons]
    rw [ih, insertNote_mem, List.mem_cons]
    tauto

theorem insertNote_nodup {st : List String} {n : String} (h : st.Nodup) :
    (insertNote st n).Nodup := by
  unfold insertNote
  by_cases hn : n ∈ st
  · simpa [hn]
  · rw [if_neg hn, List.nodup_append]
    refine ⟨h, List.nodup_singleton n, ?_⟩
    intro a ha hb
    rw [List.mem_singleton] at hb
    subst hb
    exact hn ha

theorem foldl_insertNote_nodup :
    ∀ (t st : List String), st.Nodup → (t.foldl insertNote st).Nodup := by
  intro t
  induction t with
  | nil => intro st h; simpa
  | cons a t ih =>
    intro st h
    simpa using ih (insertNote st a) (insertNote_nodup h)

theorem dedupF_nodup (t : List String) : (dedupF t).Nodup :=
  foldl_insertNote_nodup t [] List.nodup_nil

theorem dedupF_mem {t : List String} {x : String} : x ∈ dedupF t ↔ x ∈ t := by
  unfold dedupF
  rw [foldl_insertNote_mem]
  simp

theorem foldl_insertNote_eq_firstOccurAux :
    ∀ (t st seen : List String), (∀ x, x ∈ seen ↔ x ∈ st) →
      t.foldl insertNote st = st ++ firstOccurAux t seen := by
  intro t
  induction t with
  | nil => intro st seen _; simp [firstOccurAux]
  | cons a t ih =>
    intro st seen hiff
    by_cases ha : a ∈ seen
    · have hst : a ∈ st := (hiff a).mp ha
      simp only [List.foldl_cons, firstOccurAux, if_pos ha]
      rw [show insertNote st a = st from if_pos hst]
      exact ih st seen hiff
    · have hst : a ∉ st := fun h => ha ((hiff a).mpr h)
      simp only [List.foldl_cons, firstOccurAux, if_neg ha]
      rw [show insertNote st a = st ++ [a] from if_neg hst]
      rw [ih (st ++ [a]) (a :: seen) ?_]
      · simp
      · intro x
        rw [List.mem_cons, List.mem_append, List.mem_singleton]
        rw [hiff x]
        tauto

theorem dedupF_eq_firstOccur (t : List String) : dedupF t = firstOccur t := by
  unfold dedupF firstOccur
  simpa using foldl_insertNote_eq_firstOccurAux t [] [] (by simp)

theorem exceptMap_ok {α β : Type} {f : α → β} {e : Except Unit α} {b : β} :
    e.map f = .ok b ↔ ∃ a, e = .ok a ∧ b = f a := by
  cases e with
  | error e => simp [Except.map]
  | ok a =>
      simp only [Except.map]
      constructor
      · intro h
        injection h with h
        exact ⟨a, rfl, h.symm⟩
      · rintro ⟨a', ha, rfl⟩
        injection ha with ha
        rw [ha]

/-! ## Shared example data (the dictionary of the specification's
example scenarios, and some small units) -/

def dictEx : RulesMap :=
  [("high elf prince", ⟨some "Max 1 per 1000 points"⟩),
   ("griffon", ⟨some "Counts as Rare choice"⟩),
   ("sword of might", ⟨some "No duplicate magic items"⟩),
   ("martial prowess", ⟨some "MP note"⟩),
   ("valour of ages", ⟨some "VA note"⟩),
   ("gromril armour", ⟨some "Dwarfs only"⟩)]

/-- A unit named only through a language-tagged field. -/
def uLangName : JSValue := .obj [("name_en", .str "Griffon")]

/-- A unit whose name and mount both map to the same note text. -/
def uSameNote : JSValue := .obj [("name", .str "a"), ("mount", .str "b")]

def dictSameNote : RulesMap := [("a", ⟨some "N"⟩), ("b", ⟨some "N"⟩)]

/-! ## C3 -/

/-- C3: for every unit and dictionary, the sequence returned by
`getUnitCompNotes` contains no duplicate note strings, and it lists the
notes in the order they were first inserted along the fixed
field-visitation order: it is exactly the first-occurrence deduplication
of the insertion trace. -/
theorem collectUnitNotes_nodup_firstInsertionOrder (unit : JSValue) (rm : RulesMap)
    (l : List String) (h : getUnitCompNotes unit rm = .ok l) :
    l.Nodup ∧ ∃ t, getUnitNoteTrace unit rm = .ok t ∧ l = firstOccur t := by
  unfold getUnitCompNotes at h
  rcases exceptMap_ok.mp h with ⟨t, ht, rfl⟩
  exact ⟨dedupF_nodup t, t, ht, dedupF_eq_firstOccur t⟩

theorem collectUnitNotes_nodup_firstInsertionOrder_witness :
    List.Nodup ["N"] ∧
      ∃ t, getUnitNoteTrace uSameNote dictSameNote = .ok t ∧ ["N"] = firstOccur t :=
  collectUnitNotes_nodup_firstInsertionOrder uSameNote dictSameNote ["N"] (by decide)

/-! ## C9 -/

/-- C9: the two parallel implementations of the collector are not
extensionally equal: on a unit whose only match comes through a
language-tagged name field, the richer `getUnitCompNotes` of
`src/unnamed/part_001` finds the note while the simpler variant of
`src/src/utils/comp-notes-handler.js` returns the empty set. -/
theorem collectors_not_extensionally_equal :
    getUnitCompNotes uLangName dictEx = .ok ["Counts as Rare choice"] ∧
      getUnitCompNotesSimple uLangName dictEx = .ok [] ∧
      getUnitCompNotes uLangName dictEx ≠ getUnitCompNotesSimple uLangName dictEx :=
  ⟨by decide, by decide, by decide⟩

/-! ## C2: the `tryAdd` step against the specification's wording -/

/-- The spec-side resolver read as a chain over a key list. -/
def specChain (item : JSValue) : List String → Option String
  | [] => none
  | k :: ks => (specFieldStr item k).orElse fun _ => specChain item ks

theorem specResolveName_obj_eq_specChain (fs : List (String × JSValue)) :
    specResolveName (.obj fs) = specChain (.obj fs) nameFields := by
  simp [specResolveName, specChain, nameFields]

theorem specFieldStr_none_of_falsy {fs : List (String × JSValue)} {k : String}
    (h : jsTruthy (getFieldD (.obj fs) k) = false) : specFieldStr (.obj fs) k = none := by
  cases hf : (fs.find? (fun p => p.1 = k)) with
  | none => simp [specFieldStr, hf]
  | some p =>
      rcases p with ⟨k', v⟩
      have hv : getFieldD (.obj fs) k = v := by simp [getFieldD, hf]
      rw [hv] at h
      cases v <;> simp_all [specFieldStr, hf, jsTruthy]

theorem specFieldStr_of_truthy_str {fs : List (String × JSValue)} {k : String} {s : String}
    (h : getFieldD (.obj fs) k = .str s) (ht : jsTruthy (.str s) = true) :
    specFieldStr (.obj fs) k = some s := by
  cases hf : (fs.find? (fun p => p.1 = k)) with
  | none => simp [getFieldD, hf] at h
  | some p =>
      rcases p with ⟨k', v⟩
      have hv : getFieldD (.obj fs) k = v := by simp [getFieldD, hf]
      rw [hv] at h
      subst h
      have hne : s ≠ "" := by simpa [jsTruthy] using ht
      simp [specFieldStr, hf, hne]

theorem firstTruthy_specChain (fs : List (String × JSValue)) :
    ∀ ks : List String,
      (firstTruthyField (.obj fs) ks = none → specChain (.obj fs) ks = none) ∧
      (∀ s, firstTruthyField (.obj fs) ks = some (.str s) →
        specChain (.obj fs) ks = some s ∧ s ≠ "") := by
  intro ks
  induction ks with
  | nil => simp [firstTruthyField, specChain]
  | cons k ks ih =>
    by_cases h : jsTruthy (getFieldD (.obj fs) k) = true
    · refine ⟨?_, ?_⟩
      · intro hn
        rw [firstTruthyField, if_pos h] at hn
        exact absurd hn (by simp)
      · intro s hs
        rw [firstTruthyField, if_pos h] at hs
        injection hs with hs
        have hstr : getFieldD (.obj fs) k = .str s := hs
        have hne : s ≠ "" := by
          rw [hstr] at h
          simpa [jsTruthy] using h
        refine ⟨?_, hne⟩
        rw [specChain, specFieldStr_of_truthy_str hstr (by simpa [jsTruthy] using hne)]
        rfl
    · have hfalse : jsTruthy (getFieldD (.obj fs) k) = false := by
        revert h; cases jsTruthy (getFieldD (.obj fs) k) <;> simp
      have hnone := specFieldStr_none_of_falsy hfalse
      refine ⟨?_, ?_⟩
      · intro hn
        rw [firstTruthyField, if_neg (by simp [hfalse])] at hn
        rw [specChain, hnone]
        simpa [Option.orElse] using (ih.1 hn)
      · intro s hs
        rw [firstTruthyField, if_neg (by simp [hfalse])] at hs
        rcases ih.2 s hs with ⟨hc, hne⟩
        refine ⟨?_, hne⟩
        rw [specChain, hnone]
        simpa [Option.orElse] using hc

theorem extractName_spec_dichotomy (item : JSValue)
    (h : resolvesToStrOrNone item = true) :
    (extractName item = none ∧ specResolveName item = none) ∨
      ∃ s, s ≠ "" ∧ extractName item = some (.str s) ∧ specResolveName item = some s := by
  unfold resolvesToStrOrNone at h
  cases hx : extractName item with
  | none =>
      left
      refine ⟨rfl, ?_⟩
      cases item with
      | str s =>
          unfold extractName at hx
          by_cases hs : s = ""
          · simp [specResolveName, hs]
          · rw [if_pos (by simp [jsTruthy, hs])] at hx
            exact absurd hx (by simp)
      | obj fs =>
          rw [specResolveName_obj_eq_specChain]
          unfold extractName at hx
          simp only [jsTruthy] at hx
          exact (firstTruthy_specChain fs nameFields).1 hx
      | undef => simp [specResolveName]
      | null => simp [specResolveName]
      | bool b => simp [specResolveName]
      | num n => simp [specResolveName]
      | arr xs => simp [specResolveName]
  | some v =>
      rw [hx] at h
      cases v with
      | str s =>
          right
          refine ⟨s, ?_, rfl, ?_⟩
          · -- the extracted value is always truthy, hence a non-empty string
            cases item with
            | str s' =>
                unfold extractName at hx
                by_cases hs : s' = ""
                · rw [if_neg (by simp [jsTruthy, hs])] at hx
                  exact absurd hx (by simp)
                · rw [if_pos (by simp [jsTruthy, hs])] at hx
                  injection hx with hx
                  injection hx with hx
                  subst hx
                  exact hs
            | obj fs =>
                unfold extractName at hx
                simp only [jsTruthy] at hx
                exact ((firstTruthy_specChain fs nameFields).2 s hx).2
            | undef => exact absurd hx (by simp [extractName, jsTruthy])
            | null => exact absurd hx (by simp [extractName, jsTruthy])
            | bool b => exact absurd hx (by simp [extractName, jsTruthy])
            | num n => exact absurd hx (by simp [extractName, jsTruthy])
            | arr xs => exact absurd hx (by simp [extractName, jsTruthy])
          · cases item with
            | str s' =>
                unfold extractName at hx
                by_cases hs : s' = ""
                · rw [if_neg (by simp [jsTruthy, hs])] at hx
                  exact absurd hx (by simp)
                · rw [if_pos (by simp [jsTruthy, hs])] at hx
                  injection hx with hx
                  injection hx with hx
                  subst hx
                  simp [specResolveName, hs]
            | obj fs =>
                unfold extractName at hx
                simp only [jsTruthy] at hx
                rw [specResolveName_obj_eq_specChain]
                exact ((firstTruthy_specChain fs nameFields).2 s hx).1
            | undef => exact absurd hx (by simp [extractName, jsTruthy])
            | null => exact absurd hx (by simp [extractName, jsTruthy])
            | bool b => exact absurd hx (by simp [extractName, jsTruthy])
            | num n => exact absurd hx (by simp [extractName, jsTruthy])
            | arr xs => exact absurd hx (by simp [extractName, jsTruthy])
      | undef => exact absurd h (by simp)
      | null => exact absurd h (by simp)
      | bool b => exact absurd h (by simp)
      | num n => exact absurd h (by simp)
      | arr xs => exact absurd h (by simp)
      | obj fs => exact absurd h (by simp)

theorem canonKey_eq_specCanonicalize : ∀ s, canonKey s = specCanonicalize s :=
  fun _ => rfl

/-- C2: for every raw item, the `tryAdd` step behaves exactly as the
specification words it: resolve the name by the fixed field priority (a
plain string unchanged, absent/empty skipped without a lookup),
lower-case + trim + strip braces to form the key, and insert the entry's
composition note exactly when the entry and a meaningful note are
present.  (Hypothesis: the item resolves to a string or nothing — the
shapes the data model documents.) -/
theorem tryAdd_matches_spec (item : JSValue) (rm : RulesMap)
    (h : resolvesToStrOrNone item = true) :
    tryAddName (lookupNote rm) item = .ok (specTryAdd rm item) := by
  rcases extractName_spec_dichotomy item h with ⟨hx, hs⟩ | ⟨s, hne, hx, hs⟩
  · rw [tryAddName, hx, specTryAdd, hs]
  · rw [tryAddName, hx, specTryAdd, hs]
    simp only [addCompNote, addCompNoteStr, if_neg hne]
    rw [← canonKey_eq_specCanonicalize]
    unfold lookupNote
    cases hE : lookupEntry rm (canonKey s) with
    | none => simp
    | some e =>
        cases hN : e.compNote with
        | none => simp [hN]
        | some n =>
            by_cases hn0 : n = ""
            · simp [hN, hn0]
            · simp [hN, hn0]

def uTryAdd : JSValue := .obj [("name_en", .str ""), ("name_cn", .str " {Griffon} ")]

theorem tryAdd_matches_spec_witness :
    resolvesToStrOrNone uTryAdd = true ∧
      tryAddName (lookupNote dictEx) uTryAdd = .ok (specTryAdd dictEx uTryAdd) :=
  ⟨by decide, tryAdd_matches_spec uTryAdd dictEx (by decide)⟩


theorem exceptBind_ok {α β : Type} (a : α) (f : α → Except Unit β) :
    (Except.ok a >>= f) = f a := rfl

theorem specialRules_fold (look : String → Option String) :
    ∀ (xs : List JSValue) (acc : List String),
      (∀ e ∈ xs, resolvesToStrOrNone e = true) →
      xs.foldlM (fun acc r =>
          match extractName r with
          | some n => do pure (acc ++ (← addCommaSplit look n))
          | none => pure acc) acc =
        .ok (acc ++ xs.flatMap (claimRuleSegments look)) := by
  intro xs
  induction xs with
  | nil =>
      intro acc _
      simp only [List.foldlM_nil, List.flatMap_nil, List.append_nil]
      rfl
  | cons r xs ih =>
    intro acc h
    have hr : resolvesToStrOrNone r = true := h r (by simp)
    have hrest : ∀ e ∈ xs, resolvesToStrOrNone e = true := fun e he => h e (by simp [he])
    rw [List.foldlM_cons]
    unfold resolvesToStrOrNone at hr
    cases hx : extractName r with
    | none =>
        have hstep : (match (none : Option JSValue) with
            | some n => do pure (acc ++ (← addCommaSplit look n))
            | none => pure (α := List String) acc) = Except.ok acc := rfl
        rw [hstep, exceptBind_ok]
        rw [ih acc hrest]
        simp [claimRuleSegments, hx]
    | some v =>
        rw [hx] at hr
        cases v with
        | str s =>
            have hstep : (match (some (JSValue.str s) : Option JSValue) with
                | some n => do pure (acc ++ (← addCommaSplit look n))
                | none => pure (α := List String) acc) =
                Except.ok (acc ++ ((sSplitComma s).map sTrim).flatMap (addCompNoteStr look)) := rfl
            rw [hstep, exceptBind_ok]
            rw [ih _ hrest]
            simp [claimRuleSegments, hx, splitSegments]
        | undef => simp at hr
        | null => simp at hr
        | bool b => simp at hr
        | num n => simp at hr
        | arr ys => simp at hr
        | obj fs => simp at hr

theorem specialRulesField_eval (look : String → Option String) (sr : JSValue)
    (h : resolvableSeqOrOne sr = true) :
    specialRulesField look sr = .ok (claimSpecialRulesNotes look sr) := by
  unfold specialRulesField claimSpecialRulesNotes
  by_cases ht : jsTruthy sr = true
  · rw [if_pos ht, if_pos ht]
    unfold resolvableSeqOrOne at h
    rw [ht] at h
    cases sr with
    | arr xs =>
        simp only at h ⊢
        exact specialRules_fold look xs [] (by simpa using h)
    | str s =>
        simp only at h ⊢
        unfold resolvesToStrOrNone at h
        cases hx : extractName (.str s) with
        | none => simp [claimRuleSegments, hx]; rfl
        | some v =>
            rw [hx] at h
            cases v with
            | str s' => simp [claimRuleSegments, hx, addCommaSplit, splitSegments]
            | undef => simp at h
            | null => simp at h
            | bool b => simp at h
            | num n => simp at h
            | arr ys => simp at h
            | obj fs => simp at h
    | obj fs =>
        simp only at h ⊢
        unfold resolvesToStrOrNone at h
        cases hx : extractName (.obj fs) with
        | none => simp [claimRuleSegments, hx]; rfl
        | some v =>
            rw [hx] at h
            cases v with
            | str s' => simp [claimRuleSegments, hx, addCommaSplit, splitSegments]
            | undef => simp at h
            | null => simp at h
            | bool b => simp at h
            | num n => simp at h
            | arr ys => simp at h
            | obj fs' => simp at h
    | undef => simp [jsTruthy] at ht
    | null => simp [jsTruthy] at ht
    | bool b =>
        cases b
        · simp [jsTruthy] at ht
        · rfl
    | num n =>
        have hxn : extractName (.num n) = none := by
          unfold extractName
          cases h' : jsTruthy (.num n) <;> simp
        simp only [claimRuleSegments, hxn]
        rfl
  · have ht' : jsTruthy sr = false := by revert ht; cases jsTruthy sr <;> simp
    rw [if_neg (by simp [ht']), if_neg (by simp [ht'])]

/-- C4: for every dictionary and every well-shaped `specialRules` field
value, the collector's treatment is exactly the claimed one: an ordered
sequence is traversed element-wise, a single truthy value is treated
alone, and in both cases the resolved name is split on `','` into trimmed
segments, each looked up independently. -/
theorem specialRules_comma_split (rm : RulesMap) (sr : JSValue)
    (h : resolvableSeqOrOne sr = true) :
    specialRulesField (lookupNote rm) sr = .ok (claimSpecialRulesNotes (lookupNote rm) sr) :=
  specialRulesField_eval (lookupNote rm) sr h

def srEx : JSValue := .arr [.str "Martial Prowess, Valour of Ages"]

theorem specialRules_comma_split_witness :
    resolvableSeqOrOne srEx = true ∧
      specialRulesField (lookupNote dictEx) srEx =
        .ok (claimSpecialRulesNotes (lookupNote dictEx) srEx) ∧
      claimSpecialRulesNotes (lookupNote dictEx) srEx = ["MP note", "VA note"] :=
  ⟨by decide, specialRules_comma_split dictEx srEx (by decide), by decide⟩

/-! ## C8: equipment display names -/

theorem exceptPure_ok {α : Type} (a : α) : (pure a : Except Unit α) = .ok a := rfl

theorem jsGet_notNullish {v : JSValue} {k : String} (h : notNullish v = true) :
    jsGet v k = .ok (getFieldD v k) := by
  cases v <;> simp_all [notNullish, jsGet]

/-- What the (amended) claim says one equipment element contributes: only
its `name_en` is consulted — brace-stripped, split on comma into
lower-cased trimmed segments, each looked up directly. -/
def claimEquipSegs (look : String → Option String) (it : JSValue) : List String :=
  if jsTruthy (getFieldD it "active") then
    match getFieldD it "name_en" with
    | .str s => equipNoteSegs look (removeBraces s)
    | _ => equipNoteSegs look ""
  else []

theorem equipment_step (look : String → Option String) (acc : List String) (it : JSValue)
    (hit : wellShapedActiveItem it = true) :
    (do
      let act ← jsGet it "active"
      if jsTruthy act then do
        let ne ← jsGet it "name_en"
        match ne with
        | .str s => pure (acc ++ equipNoteSegs look (removeBraces s))
        | .undef => pure (acc ++ equipNoteSegs look "")
        | .null => pure (acc ++ equipNoteSegs look "")
        | _ => .error ()
      else pure acc) = .ok (acc ++ claimEquipSegs look it) := by
  have hnn : notNullish it = true := by
    unfold wellShapedActiveItem at hit
    exact (Bool.and_eq_true_iff.mp hit).1
  rw [show (do
      let act ← jsGet it "active"
      if jsTruthy act then do
        let ne ← jsGet it "name_en"
        match ne with
        | .str s => pure (acc ++ equipNoteSegs look (removeBraces s))
        | .undef => pure (acc ++ equipNoteSegs look "")
        | .null => pure (acc ++ equipNoteSegs look "")
        | _ => (.error () : Except Unit (List String))
      else pure acc) = jsGet it "active" >>= fun act =>
        if jsTruthy act then
          jsGet it "name_en" >>= fun ne =>
            match ne with
            | .str s => pure (acc ++ equipNoteSegs look (removeBraces s))
            | .undef => pure (acc ++ equipNoteSegs look "")
            | .null => pure (acc ++ equipNoteSegs look "")
            | _ => .error ()
        else pure acc from rfl]
  rw [jsGet_notNullish hnn, exceptBind_ok]
  by_cases hact : jsTruthy (getFieldD it "active") = true
  · rw [if_pos hact, jsGet_notNullish hnn, exceptBind_ok]
    have hne : strOrNullish (getFieldD it "name_en") = true := by
      unfold wellShapedActiveItem at hit
      rcases Bool.and_eq_true_iff.mp hit with ⟨_, h2⟩
      rcases Bool.or_eq_true_iff.mp h2 with h3 | h3
      · rw [hact] at h3; simp at h3
      · exact h3
    cases hv : getFieldD it "name_en" with
    | str s => simp [claimEquipSegs, hact, hv, Pure.pure, Except.pure]
    | undef => simp [claimEquipSegs, hact, hv, Pure.pure, Except.pure]
    | null => simp [claimEquipSegs, hact, hv, Pure.pure, Except.pure]
    | bool b => rw [hv] at hne; simp [strOrNullish] at hne
    | num n => rw [hv] at hne; simp [strOrNullish] at hne
    | arr ys => rw [hv] at hne; simp [strOrNullish] at hne
    | obj fs => rw [hv] at hne; simp [strOrNullish] at hne
  · have hact2 : jsTruthy (getFieldD it "active") = false := by
      revert hact; cases jsTruthy (getFieldD it "active") <;> simp
    rw [if_neg (by simp [hact2])]
    simp [claimEquipSegs, hact2, Pure.pure, Except.pure]

theorem equipment_fold (look : String → Option String) :
    ∀ (xs : List JSValue) (acc : List String),
      (∀ it ∈ xs, wellShapedActiveItem it = true) →
      xs.foldlM (fun acc item => do
          let act ← jsGet item "active"
          if jsTruthy act then do
            let ne ← jsGet item "name_en"
            match ne with
            | .str s => pure (acc ++ equipNoteSegs look (removeBraces s))
            | .undef => pure (acc ++ equipNoteSegs look "")
            | .null => pure (acc ++ equipNoteSegs look "")
            | _ => .error ()
          else pure acc) acc =
        .ok (acc ++ xs.flatMap (claimEquipSegs look)) := by
  intro xs
  induction xs with
  | nil =>
      intro acc _
      simp only [List.foldlM_nil, List.flatMap_nil, List.append_nil]
      rfl
  | cons it xs ih =>
    intro acc h
    have hit : wellShapedActiveItem it = true := h it (by simp)
    have hrest : ∀ e ∈ xs, wellShapedActiveItem e = true := fun e he => h e (by simp [he])
    rw [List.foldlM_cons]
    rw [equipment_step look acc it hit, exceptBind_ok, ih _ hrest]
    simp

/-- C8 (amended): for every dictionary and every array of well-shaped
equipment elements, an active element's contribution is computed from its
`name_en` field only — brace-stripped, split on comma into lower-cased
trimmed segments, each looked up directly and its note added when present;
elements named through plain `name` or any other language variant
contribute nothing. -/
theorem equipment_uses_name_en_only (rm : RulesMap) (xs : List JSValue)
    (h : ∀ it ∈ xs, wellShapedActiveItem it = true) :
    equipmentField (lookupNote rm) (.arr xs) =
      .ok (xs.flatMap (claimEquipSegs (lookupNote rm))) := by
  unfold equipmentField
  rw [if_pos (by simp [jsTruthy])]
  simpa using equipment_fold (lookupNote rm) xs [] h

def uEquipPlain : JSValue :=
  .obj [("equipment", .arr [.obj [("active", .bool true), ("name", .str "Griffon")]])]

/-- C8 counterexample: an active equipment element carrying its name under
plain `name` resolves through `extractName` and its canonical key has a
note in the dictionary, yet the collector returns the empty set — the
equipment loop reads `name_en` only, not the claimed `resolveName`. -/
theorem equipment_plain_name_not_resolved :
    extractName (.obj [("active", .bool true), ("name", .str "Griffon")]) =
        some (.str "Griffon") ∧
      lookupNote dictEx (canonKey "Griffon") = some "Counts as Rare choice" ∧
      getUnitCompNotes uEquipPlain dictEx = .ok [] :=
  ⟨rfl, by decide, by decide⟩

def xsEquipEx : List JSValue :=
  [.obj [("active", .bool true), ("name_en", .str "{Griffon}, Sword of Might")],
   .obj [("active", .bool false), ("name_en", .str "Gromril Armour")]]

theorem equipment_uses_name_en_only_witness :
    (∀ it ∈ xsEquipEx, wellShapedActiveItem it = true) ∧
      equipmentField (lookupNote dictEx) (.arr xsEquipEx) =
        .ok (xsEquipEx.flatMap (claimEquipSegs (lookupNote dictEx))) ∧
      xsEquipEx.flatMap (claimEquipSegs (lookupNote dictEx)) =
        ["Counts as Rare choice", "No duplicate magic items"] :=
  ⟨by decide, equipment_uses_name_en_only dictEx xsEquipEx (by decide), by decide⟩

/-! ## C5: inactive entries contribute nothing -/

theorem find?_setAssocFirst_ne (fs : List (String × JSValue)) (k nvk : String) (nv : JSValue)
    (h : nvk ≠ k) :
    (setAssocFirst fs k nv).find? (fun p => p.1 = nvk) = fs.find? (fun p => p.1 = nvk) := by
  induction fs with
  | nil => rfl
  | cons p fs ih =>
    rcases p with ⟨k', v'⟩
    by_cases hk : k' = k
    · subst hk
      rw [show setAssocFirst ((k', v') :: fs) k' nv = (k', nv) :: fs from by
        simp [setAssocFirst]]
      have hne : ¬(k' = nvk) := fun hh => h (hh.symm ▸ rfl)
      simp [List.find?, hne]
    · rw [show setAssocFirst ((k', v') :: fs) k nv = (k', v') :: setAssocFirst fs k nv from by
        simp [setAssocFirst, hk]]
      by_cases he : k' = nvk
      · simp [List.find?, he]
      · simp [List.find?, he, ih]

theorem getFieldD_setFieldFirst_ne {u : JSValue} {k k' : String} {nv : JSValue} (h : k' ≠ k) :
    getFieldD (setFieldFirst u k nv) k' = getFieldD u k' := by
  cases u with
  | obj fs => simp [setFieldFirst, getFieldD, find?_setAssocFirst_ne fs k k' nv h]
  | undef => rfl
  | null => rfl
  | bool b => rfl
  | num n => rfl
  | str s => rfl
  | arr xs => rfl

theorem notNullish_setFieldFirst (u : JSValue) (k : String) (nv : JSValue) :
    notNullish (setFieldFirst u k nv) = notNullish u := by
  cases u <;> rfl

theorem obj_of_getFieldD_ne_undef {u : JSValue} {k : String}
    (h : getFieldD u k ≠ .undef) : ∃ fs, u = .obj fs := by
  cases u with
  | obj fs => exact ⟨fs, rfl⟩
  | undef => exact absurd rfl h
  | null => exact absurd rfl h
  | bool b => exact absurd rfl h
  | num n => exact absurd rfl h
  | str s => exact absurd rfl h
  | arr xs => exact absurd rfl h

theorem getFieldD_setFieldFirst_self {u : JSValue} {k : String} {nv : JSValue}
    (h : getFieldD u k ≠ .undef) : getFieldD (setFieldFirst u k nv) k = nv := by
  rcases obj_of_getFieldD_ne_undef h with ⟨fs, rfl⟩
  simp only [setFieldFirst]
  induction fs with
  | nil => simp [getFieldD] at h
  | cons p fs ih =>
    rcases p with ⟨k', v'⟩
    by_cases hk : k' = k
    · subst hk
      rw [show setAssocFirst ((k', v') :: fs) k' nv = (k', nv) :: fs from by simp [setAssocFirst]]
      simp [getFieldD, List.find?]
    · rw [show setAssocFirst ((k', v') :: fs) k nv = (k', v') :: setAssocFirst fs k nv from by
        simp [setAssocFirst, hk]]
      have h' : getFieldD (.obj fs) k ≠ .undef := by
        simpa [getFieldD, List.find?, hk] using h
      have := ih h'
      simpa [getFieldD, List.find?, hk] using this

theorem firstTruthyField_setFieldFirst {u : JSValue} {k : String} {nv : JSValue} :
    ∀ ks : List String, k ∉ ks →
      firstTruthyField (setFieldFirst u k nv) ks = firstTruthyField u ks := by
  intro ks
  induction ks with
  | nil => intro _; rfl
  | cons k' ks ih =>
    intro h
    have h1 : k' ≠ k := fun hh => h (by simp [hh])
    have h2 : k ∉ ks := fun hh => h (by simp [hh])
    simp [firstTruthyField, getFieldD_setFieldFirst_ne h1, ih h2]

theorem extractName_setFieldFirst {u : JSValue} {k : String} {nv : JSValue}
    (h : k ∉ nameFields) : extractName (setFieldFirst u k nv) = extractName u := by
  cases u with
  | obj fs =>
      have : setFieldFirst (.obj fs) k nv = .obj (setAssocFirst fs k nv) := rfl
      rw [this]
      simp only [extractName, jsTruthy]
      exact firstTruthyField_setFieldFirst (u := .obj fs) nameFields h
  | undef => rfl
  | null => rfl
  | bool b => rfl
  | num n => rfl
  | str s => rfl
  | arr xs => rfl

theorem tryAddName_congr {look : String → Option String} {a b : JSValue}
    (h : extractName a = extractName b) : tryAddName look a = tryAddName look b := by
  unfold tryAddName
  rw [h]

theorem getUnitNoteTrace_eval (u : JSValue) (rm : RulesMap) (hu : notNullish u = true) :
    getUnitNoteTrace u rm =
      notesUnitName (lookupNote rm) u >>= fun n1 =>
      mountField (lookupNote rm) (getFieldD u "mount") >>= fun n2 =>
      specialRulesField (lookupNote rm) (getFieldD u "specialRules") >>= fun n3 =>
      resolveSeqField (lookupNote rm) (getFieldD u "weapons") >>= fun n4 =>
      equipmentField (lookupNote rm) (getFieldD u "equipment") >>= fun n5 =>
      resolveSeqField (lookupNote rm) (getFieldD u "magicItems") >>= fun n6 =>
      itemsField (lookupNote rm) (getFieldD u "items") >>= fun n7 =>
      armorField (lookupNote rm) (getFieldD u "armor") >>= fun n8 =>
      resolveSeqField (lookupNote rm) (getFieldD u "options") >>= fun n9 =>
      mountsField (lookupNote rm) (getFieldD u "mounts") >>= fun n10 =>
      commandField1 (lookupNote rm) (getFieldD u "command") >>= fun n11 =>
      commandField2 (lookupNote rm) (getFieldD u "command") >>= fun n12 =>
      pure (n1 ++ n2 ++ n3 ++ n4 ++ n5 ++ n6 ++ n7 ++ n8 ++ n9 ++ n10 ++ n11 ++ n12) := by
  unfold getUnitNoteTrace
  simp only [jsGet_notNullish hu, exceptBind_ok]

theorem foldlM_append_skip (f : List String → JSValue → Except Unit (List String)) (e : JSValue)
    (hf : ∀ acc, f acc e = .ok acc) (xs : List JSValue) (acc : List String) :
    (xs ++ [e]).foldlM f acc = xs.foldlM f acc := by
  rw [List.foldlM_append]
  have h1 : ∀ b', ([e].foldlM f b') = pure b' := by
    intro b'
    rw [List.foldlM_cons, hf b', exceptBind_ok, List.foldlM_nil]
  calc (xs.foldlM f acc >>= fun b' => [e].foldlM f b')
      = xs.foldlM f acc >>= pure := by simp only [h1]
    _ = xs.foldlM f acc := bind_pure _

theorem inactive_jsGet_active {e : JSValue} (he : getFieldD e "active" = .bool false) :
    jsGet e "active" = .ok (.bool false) := by
  have hne : getFieldD e "active" ≠ .undef := by rw [he]; intro hh; exact JSValue.noConfusion hh
  rcases obj_of_getFieldD_ne_undef hne with ⟨fs, he'⟩
  rw [jsGet_notNullish (by rw [he']; rfl), he]

theorem equipmentField_append_inactive (look : String → Option String) {e : JSValue}
    (he : getFieldD e "active" = .bool false) (xs : List JSValue) :
    equipmentField look (.arr (xs ++ [e])) = equipmentField look (.arr xs) := by
  have hget := inactive_jsGet_active he
  simp only [equipmentField, jsTruthy, if_true]
  exact foldlM_append_skip _ e
    (fun acc => by simp [hget, exceptBind_ok, jsTruthy, Pure.pure, Except.pure]) xs []

theorem mountsField_append_inactive (look : String → Option String) {e : JSValue}
    (he : getFieldD e "active" = .bool false) (xs : List JSValue) :
    mountsField look (.arr (xs ++ [e])) = mountsField look (.arr xs) := by
  have hget := inactive_jsGet_active he
  simp only [mountsField, jsTruthy, if_true]
  exact foldlM_append_skip _ e
    (fun acc => by simp [hget, exceptBind_ok, jsTruthy, Pure.pure, Except.pure]) xs []

theorem commandField1_append_inactive (look : String → Option String) {e : JSValue}
    (he : getFieldD e "active" = .bool false) (xs : List JSValue) :
    commandField1 look (.arr (xs ++ [e])) = commandField1 look (.arr xs) := by
  have hget := inactive_jsGet_active he
  simp only [commandField1]
  exact foldlM_append_skip _ e
    (fun acc => by simp [hget, exceptBind_ok, jsTruthy, Pure.pure, Except.pure]) xs []

theorem commandField2_append_inactive (look : String → Option String) {e : JSValue}
    (he : getFieldD e "active" = .bool false) (xs : List JSValue) :
    commandField2 look (.arr (xs ++ [e])) = commandField2 look (.arr xs) := by
  have hget := inactive_jsGet_active he
  simp only [commandField2]
  exact foldlM_append_skip _ e
    (fun acc => by simp [hget, exceptBind_ok, jsTruthy, Pure.pure, Except.pure]) xs []

/-- C5: for every unit, dictionary and entry `e` with `e.active = false`,
appending `e` to the unit's `equipment`, `mounts` or `command` sequence
yields exactly the same `getUnitCompNotes` result as omitting `e`
entirely. -/
theorem inactive_entries_contribute_nothing (u : JSValue) (rm : RulesMap) (e : JSValue)
    (he : getFieldD e "active" = .bool false) :
    (∀ xs, getFieldD u "equipment" = .arr xs →
      getUnitCompNotes (setFieldFirst u "equipment" (.arr (xs ++ [e]))) rm =
        getUnitCompNotes u rm) ∧
    (∀ xs, getFieldD u "mounts" = .arr xs →
      getUnitCompNotes (setFieldFirst u "mounts" (.arr (xs ++ [e]))) rm =
        getUnitCompNotes u rm) ∧
    (∀ xs, getFieldD u "command" = .arr xs →
      getUnitCompNotes (setFieldFirst u "command" (.arr (xs ++ [e]))) rm =
        getUnitCompNotes u rm) := by
  refine ⟨?_, ?_, ?_⟩
  · intro xs hx
    have hne : getFieldD u "equipment" ≠ .undef := by rw [hx]; intro hh; exact JSValue.noConfusion hh
    rcases obj_of_getFieldD_ne_undef hne with ⟨fs, rfl⟩
    have hu : notNullish (JSValue.obj fs) = true := rfl
    have hu' : notNullish (setFieldFirst (.obj fs) "equipment" (.arr (xs ++ [e]))) = true := by
      rw [notNullish_setFieldFirst]; rfl
    unfold getUnitCompNotes
    rw [getUnitNoteTrace_eval _ rm hu', getUnitNoteTrace_eval _ rm hu]
    rw [show notesUnitName (lookupNote rm) (setFieldFirst (.obj fs) "equipment" (.arr (xs ++ [e]))) =
          notesUnitName (lookupNote rm) (.obj fs) from
        tryAddName_congr (extractName_setFieldFirst (by decide))]
    rw [getFieldD_setFieldFirst_self hne, hx]
    simp only [getFieldD_setFieldFirst_ne (show "mount" ≠ "equipment" by decide),
      getFieldD_setFieldFirst_ne (show "specialRules" ≠ "equipment" by decide),
      getFieldD_setFieldFirst_ne (show "weapons" ≠ "equipment" by decide),
      getFieldD_setFieldFirst_ne (show "magicItems" ≠ "equipment" by decide),
      getFieldD_setFieldFirst_ne (show "items" ≠ "equipment" by decide),
      getFieldD_setFieldFirst_ne (show "armor" ≠ "equipment" by decide),
      getFieldD_setFieldFirst_ne (show "options" ≠ "equipment" by decide),
      getFieldD_setFieldFirst_ne (show "mounts" ≠ "equipment" by decide),
      getFieldD_setFieldFirst_ne (show "command" ≠ "equipment" by decide)]
    rw [equipmentField_append_inactive (lookupNote rm) he xs]
  · intro xs hx
    have hne : getFieldD u "mounts" ≠ .undef := by rw [hx]; intro hh; exact JSValue.noConfusion hh
    rcases obj_of_getFieldD_ne_undef hne with ⟨fs, rfl⟩
    have hu : notNullish (JSValue.obj fs) = true := rfl
    have hu' : notNullish (setFieldFirst (.obj fs) "mounts" (.arr (xs ++ [e]))) = true := by
      rw [notNullish_setFieldFirst]; rfl
    unfold getUnitCompNotes
    rw [getUnitNoteTrace_eval _ rm hu', getUnitNoteTrace_eval _ rm hu]
    rw [show notesUnitName (lookupNote rm) (setFieldFirst (.obj fs) "mounts" (.arr (xs ++ [e]))) =
          notesUnitName (lookupNote rm) (.obj fs) from
        tryAddName_congr (extractName_setFieldFirst (by decide))]
    rw [getFieldD_setFieldFirst_self hne, hx]
    simp only [getFieldD_setFieldFirst_ne (show "mount" ≠ "mounts" by decide),
      getFieldD_setFieldFirst_ne (show "specialRules" ≠ "mounts" by decide),
      getFieldD_setFieldFirst_ne (show "weapons" ≠ "mounts" by decide),
      getFieldD_setFieldFirst_ne (show "equipment" ≠ "mounts" by decide),
      getFieldD_setFieldFirst_ne (show "magicItems" ≠ "mounts" by decide),
      getFieldD_setFieldFirst_ne (show "items" ≠ "mounts" by decide),
      getFieldD_setFieldFirst_ne (show "armor" ≠ "mounts" by decide),
      getFieldD_setFieldFirst_ne (show "options" ≠ "mounts" by decide),
      getFieldD_setFieldFirst_ne (show "command" ≠ "mounts" by decide)]
    rw [mountsField_append_inactive (lookupNote rm) he xs]
  · intro xs hx
    have hne : getFieldD u "command" ≠ .undef := by rw [hx]; intro hh; exact JSValue.noConfusion hh
    rcases obj_of_getFieldD_ne_undef hne with ⟨fs, rfl⟩
    have hu : notNullish (JSValue.obj fs) = true := rfl
    have hu' : notNullish (setFieldFirst (.obj fs) "command" (.arr (xs ++ [e]))) = true := by
      rw [notNullish_setFieldFirst]; rfl
    unfold getUnitCompNotes
    rw [getUnitNoteTrace_eval _ rm hu', getUnitNoteTrace_eval _ rm hu]
    rw [show notesUnitName (lookupNote rm) (setFieldFirst (.obj fs) "command" (.arr (xs ++ [e]))) =
          notesUnitName (lookupNote rm) (.obj fs) from
        tryAddName_congr (extractName_setFieldFirst (by decide))]
    rw [getFieldD_setFieldFirst_self hne, hx]
    simp only [getFieldD_setFieldFirst_ne (show "mount" ≠ "command" by decide),
      getFieldD_setFieldFirst_ne (show "specialRules" ≠ "command" by decide),
      getFieldD_setFieldFirst_ne (show "weapons" ≠ "command" by decide),
      getFieldD_setFieldFirst_ne (show "equipment" ≠ "command" by decide),
      getFieldD_setFieldFirst_ne (show "magicItems" ≠ "command" by decide),
      getFieldD_setFieldFirst_ne (show "items" ≠ "command" by decide),
      getFieldD_setFieldFirst_ne (show "armor" ≠ "command" by decide),
      getFieldD_setFieldFirst_ne (show "options" ≠ "command" by decide),
      getFieldD_setFieldFirst_ne (show "mounts" ≠ "command" by decide)]
    rw [commandField1_append_inactive (lookupNote rm) he xs,
      commandField2_append_inactive (lookupNote rm) he xs]

def uC5 : JSValue :=
  .obj [("name", .str "High Elf Prince"),
        ("equipment", .arr [.obj [("active", .bool true), ("name_en", .str "Sword of Might")]])]

def xsC5 : List JSValue := [.obj [("active", .bool true), ("name_en", .str "Sword of Might")]]

def eC5 : JSValue := .obj [("active", .bool false), ("name_en", .str "Griffon")]

theorem inactive_entries_contribute_nothing_witness :
    getUnitCompNotes (setFieldFirst uC5 "equipment" (.arr (xsC5 ++ [eC5]))) dictEx =
      getUnitCompNotes uC5 dictEx :=
  (inactive_entries_contribute_nothing uC5 dictEx eC5 rfl).1 xsC5 rfl

/-! ## C1: totality of the collector -/

theorem notNullish_of_truthy {v : JSValue} (h : jsTruthy v = true) : notNullish v = true := by
  cases v <;> simp_all [jsTruthy, notNullish]

theorem foldlM_ok_of_steps (f : List String → JSValue → Except Unit (List String)) :
    ∀ (xs : List JSValue) (acc : List String),
      (∀ x ∈ xs, ∀ a, ∃ r, f a x = .ok r) →
      ∃ r, xs.foldlM f acc = .ok r := by
  intro xs
  induction xs with
  | nil => intro acc _; exact ⟨acc, rfl⟩
  | cons x xs ih =>
    intro acc h
    obtain ⟨r, hr⟩ := h x (by simp) acc
    rw [List.foldlM_cons, hr, exceptBind_ok]
    exact ih r (fun y hy a => h y (by simp [hy]) a)

theorem tryAddName_ok (look : String → Option String) {item : JSValue}
    (h : resolvesToStrOrNone item = true) : ∃ ns, tryAddName look item = .ok ns := by
  unfold resolvesToStrOrNone at h
  unfold tryAddName
  cases hx : extractName item with
  | none => exact ⟨[], rfl⟩
  | some v =>
      rw [hx] at h
      cases v with
      | str s => exact ⟨_, rfl⟩
      | undef => simp at h
      | null => simp at h
      | bool b => simp at h
      | num n => simp at h
      | arr ys => simp at h
      | obj fs => simp at h

theorem mountField_ok (look : String → Option String) {m : JSValue}
    (h : resolvesToStrOrNone m = true) : ∃ ns, mountField look m = .ok ns := by
  unfold mountField
  by_cases ht : jsTruthy m = true
  · rw [if_pos ht]
    exact tryAddName_ok look h
  · rw [if_neg ht]
    exact ⟨[], rfl⟩

theorem collectM_ok (look : String → Option String) {xs : List JSValue}
    (h : ∀ x ∈ xs, resolvesToStrOrNone x = true) :
    ∃ ns, collectM (tryAddName look) xs = .ok ns := by
  unfold collectM
  refine foldlM_ok_of_steps _ xs [] (fun x hx a => ?_)
  obtain ⟨ns, hns⟩ := tryAddName_ok look (h x hx)
  exact ⟨a ++ ns, by
    rw [show (do pure (a ++ (← tryAddName look x)) : Except Unit (List String)) =
      tryAddName look x >>= fun r => pure (a ++ r) from rfl, hns, exceptBind_ok, exceptPure_ok]⟩

theorem resolveSeqField_ok (look : String → Option String) {w : JSValue}
    (h : seqResolvable w = true) : ∃ ns, resolveSeqField look w = .ok ns := by
  unfold resolveSeqField
  unfold seqResolvable at h
  cases w with
  | arr xs => exact collectM_ok look (by simpa using h)
  | undef => exact ⟨[], rfl⟩
  | null => exact ⟨[], rfl⟩
  | bool b => exact ⟨[], rfl⟩
  | num n => exact ⟨[], rfl⟩
  | str s => exact ⟨[], rfl⟩
  | obj fs => exact ⟨[], rfl⟩

theorem specialRulesField_ok (look : String → Option String) {sr : JSValue}
    (h : resolvableSeqOrOne sr = true) : ∃ ns, specialRulesField look sr = .ok ns :=
  ⟨_, specialRulesField_eval look sr h⟩

theorem equipmentField_ok (look : String → Option String) {e : JSValue}
    (h : activeSeqShaped e = true) : ∃ ns, equipmentField look e = .ok ns := by
  unfold activeSeqShaped at h
  by_cases ht : jsTruthy e = true
  · rw [ht] at h
    simp only [Bool.not_true, Bool.false_or] at h
    cases e with
    | arr xs =>
        exact ⟨_, by
          unfold equipmentField
          rw [if_pos (by simp [jsTruthy])]
          exact equipment_fold look xs [] (by simpa using h)⟩
    | undef => simp [jsTruthy] at ht
    | null => simp [jsTruthy] at ht
    | bool b => simp at h
    | num n => simp at h
    | str s => simp at h
    | obj fs => simp at h
  · have ht' : jsTruthy e = false := by revert ht; cases jsTruthy e <;> simp
    exact ⟨[], by unfold equipmentField; rw [if_neg (by simp [ht'])]⟩

theorem itemsField_ok (look : String → Option String) {it : JSValue}
    (h : itemsShaped it = true) : ∃ ns, itemsField look it = .ok ns := by
  unfold itemsShaped at h
  unfold itemsField
  cases it with
  | arr cats =>
      refine foldlM_ok_of_steps _ cats [] (fun cat hcat a => ?_)
      have hc : notNullish cat = true ∧
          (match getFieldD cat "selected" with
           | .arr xs => xs.all resolvesToStrOrNone
           | _ => true) = true := by
        have := (List.all_eq_true.mp h) cat hcat
        exact Bool.and_eq_true_iff.mp this
      rw [show (do
            let sel ← jsGet cat "selected"
            match sel with
            | .arr xs => do pure (a ++ (← collectM (tryAddName look) xs))
            | _ => pure a) = jsGet cat "selected" >>= fun sel =>
              match sel with
              | .arr xs => collectM (tryAddName look) xs >>= fun r => pure (a ++ r)
              | _ => pure a from rfl]
      rw [jsGet_notNullish hc.1, exceptBind_ok]
      cases hv : getFieldD cat "selected" with
      | arr xs =>
          obtain ⟨ns, hns⟩ := collectM_ok look (by
            have := hc.2
            rw [hv] at this
            simpa using this)
          refine ⟨a ++ ns, ?_⟩
          show (collectM (tryAddName look) xs >>= fun r => pure (a ++ r)) = Except.ok (a ++ ns)
          rw [hns, exceptBind_ok, exceptPure_ok]
      | undef => exact ⟨a, rfl⟩
      | null => exact ⟨a, rfl⟩
      | bool b => exact ⟨a, rfl⟩
      | num n => exact ⟨a, rfl⟩
      | str s => exact ⟨a, rfl⟩
      | obj fs => exact ⟨a, rfl⟩
  | undef => exact ⟨[], rfl⟩
  | null => exact ⟨[], rfl⟩
  | bool b => exact ⟨[], rfl⟩
  | num n => exact ⟨[], rfl⟩
  | str s => exact ⟨[], rfl⟩
  | obj fs => exact ⟨[], rfl⟩

theorem armorField_ok (look : String → Option String) {a : JSValue}
    (h : resolvableSeqOrOne a = true) : ∃ ns, armorField look a = .ok ns := by
  unfold resolvableSeqOrOne at h
  unfold armorField
  by_cases ht : jsTruthy a = true
  · rw [if_pos ht]
    rw [ht] at h
    simp only [Bool.not_true, Bool.false_or] at h
    cases a with
    | arr xs => exact collectM_ok look (by simpa using h)
    | undef => simp [jsTruthy] at ht
    | null => simp [jsTruthy] at ht
    | bool b => exact tryAddName_ok look (by simpa using h)
    | num n => exact tryAddName_ok look (by simpa using h)
    | str s => exact tryAddName_ok look (by simpa using h)
    | obj fs => exact tryAddName_ok look (by simpa using h)
  · rw [if_neg ht]
    exact ⟨[], rfl⟩

theorem mountsField_ok (look : String → Option String) {m : JSValue}
    (h : activeSeqShaped m = true) : ∃ ns, mountsField look m = .ok ns := by
  unfold activeSeqShaped at h
  by_cases ht : jsTruthy m = true
  · rw [ht] at h
    simp only [Bool.not_true, Bool.false_or] at h
    cases m with
    | arr xs =>
        unfold mountsField
        rw [if_pos (by simp [jsTruthy])]
        refine foldlM_ok_of_steps _ xs [] (fun mount hm a => ?_)
        have hmi : wellShapedActiveItem mount = true :=
          (List.all_eq_true.mp (by simpa using h)) mount hm
        have hnn : notNullish mount = true := (Bool.and_eq_true_iff.mp hmi).1
        rw [jsGet_notNullish hnn, exceptBind_ok]
        by_cases hact : jsTruthy (getFieldD mount "active") = true
        · rw [if_pos hact, jsGet_notNullish hnn, exceptBind_ok]
          have hne : strOrNullish (getFieldD mount "name_en") = true := by
            rcases Bool.and_eq_true_iff.mp hmi with ⟨_, h2⟩
            rcases Bool.or_eq_true_iff.mp h2 with h3 | h3
            · rw [hact] at h3; simp at h3
            · exact h3
          cases hv : getFieldD mount "name_en" with
          | str s =>
              show ∃ r, (match look (canonKey s) with
                  | some n => (pure (a ++ [n]) : Except Unit (List String))
                  | none => pure a) = .ok r
              cases hl : look (canonKey s) with
              | some n => exact ⟨a ++ [n], rfl⟩
              | none => exact ⟨a, rfl⟩
          | undef =>
              show ∃ r, (match look "undefined" with
                  | some n => (pure (a ++ [n]) : Except Unit (List String))
                  | none => pure a) = .ok r
              cases hl : look "undefined" with
              | some n => exact ⟨a ++ [n], rfl⟩
              | none => exact ⟨a, rfl⟩
          | null =>
              show ∃ r, (match look "undefined" with
                  | some n => (pure (a ++ [n]) : Except Unit (List String))
                  | none => pure a) = .ok r
              cases hl : look "undefined" with
              | some n => exact ⟨a ++ [n], rfl⟩
              | none => exact ⟨a, rfl⟩
          | bool b => rw [hv] at hne; simp [strOrNullish] at hne
          | num n => rw [hv] at hne; simp [strOrNullish] at hne
          | arr ys => rw [hv] at hne; simp [strOrNullish] at hne
          | obj fs => rw [hv] at hne; simp [strOrNullish] at hne
        · rw [if_neg hact]
          exact ⟨a, rfl⟩
    | undef => simp [jsTruthy] at ht
    | null => simp [jsTruthy] at ht
    | bool b => simp at h
    | num n => simp at h
    | str s => simp at h
    | obj fs => simp at h
  · have ht' : jsTruthy m = false := by revert ht; cases jsTruthy m <;> simp
    exact ⟨[], by unfold mountsField; rw [if_neg (by simp [ht'])]⟩

theorem commandField1_ok (look : String → Option String) {c : JSValue}
    (h : commandShaped c = true) : ∃ ns, commandField1 look c = .ok ns := by
  unfold commandShaped at h
  unfold commandField1
  cases c with
  | arr xs =>
      refine foldlM_ok_of_steps _ xs [] (fun ci hci a => ?_)
      have hc : wellShapedCommandItem ci = true :=
        (List.all_eq_true.mp (by simpa using h)) ci hci
      have hnn : notNullish ci = true := (Bool.and_eq_true_iff.mp hc).1
      rw [jsGet_notNullish hnn, exceptBind_ok]
      by_cases hact : jsTruthy (getFieldD ci "active") = true
      · rw [if_pos hact]
        have hres : resolvesToStrOrNone ci = true := by
          rcases Bool.and_eq_true_iff.mp hc with ⟨_, h2⟩
          rcases Bool.or_eq_true_iff.mp h2 with h3 | h3
          · rw [hact] at h3; simp at h3
          · exact (Bool.and_eq_true_iff.mp h3).1
        unfold resolvesToStrOrNone at hres
        cases hx : extractName ci with
        | none => exact ⟨a, rfl⟩
        | some v =>
            rw [hx] at hres
            cases v with
            | str s => exact ⟨_, rfl⟩
            | undef => simp at hres
            | null => simp at hres
            | bool b => simp at hres
            | num n => simp at hres
            | arr ys => simp at hres
            | obj fs => simp at hres
      · rw [if_neg hact]
        exact ⟨a, rfl⟩
  | undef => exact ⟨[], rfl⟩
  | null => exact ⟨[], rfl⟩
  | bool b => exact ⟨[], rfl⟩
  | num n => exact ⟨[], rfl⟩
  | str s => exact ⟨[], rfl⟩
  | obj fs => exact ⟨[], rfl⟩

theorem commandField2_ok (look : String → Option String) {c : JSValue}
    (h : commandShaped c = true) : ∃ ns, commandField2 look c = .ok ns := by
  unfold commandShaped at h
  unfold commandField2
  cases c with
  | arr xs =>
      refine foldlM_ok_of_steps _ xs [] (fun ci hci a => ?_)
      have hc : wellShapedCommandItem ci = true :=
        (List.all_eq_true.mp (by simpa using h)) ci hci
      have hnn : notNullish ci = true := (Bool.and_eq_true_iff.mp hc).1
      rw [jsGet_notNullish hnn, exceptBind_ok]
      by_cases hact : jsTruthy (getFieldD ci "active") = true
      · rw [if_pos hact, jsGet_notNullish hnn, exceptBind_ok]
        by_cases hmg : jsTruthy (getFieldD ci "magic") = true
        · rw [if_pos hmg, jsGet_notNullish (notNullish_of_truthy hmg), exceptBind_ok]
          cases hv : getFieldD (getFieldD ci "magic") "selected" with
          | arr ys =>
              have hys : ∀ y ∈ ys, resolvesToStrOrNone y = true := by
                rcases Bool.and_eq_true_iff.mp hc with ⟨_, h2⟩
                rcases Bool.or_eq_true_iff.mp h2 with h3 | h3
                · rw [hact] at h3; simp at h3
                · rcases Bool.and_eq_true_iff.mp h3 with ⟨_, h4⟩
                  rcases Bool.or_eq_true_iff.mp h4 with h5 | h5
                  · rw [hmg] at h5; simp at h5
                  · rw [hv] at h5
                    simpa using h5
              obtain ⟨ns, hns⟩ := collectM_ok look hys
              refine ⟨a ++ ns, ?_⟩
              show (collectM (tryAddName look) ys >>= fun r => pure (a ++ r)) =
                Except.ok (a ++ ns)
              rw [hns, exceptBind_ok, exceptPure_ok]
          | undef => exact ⟨a, rfl⟩
          | null => exact ⟨a, rfl⟩
          | bool b => exact ⟨a, rfl⟩
          | num n => exact ⟨a, rfl⟩
          | str s => exact ⟨a, rfl⟩
          | obj fs => exact ⟨a, rfl⟩
        · rw [if_neg hmg]
          exact ⟨a, rfl⟩
      · rw [if_neg hact]
        exact ⟨a, rfl⟩
  | undef => exact ⟨[], rfl⟩
  | null => exact ⟨[], rfl⟩
  | bool b => exact ⟨[], rfl⟩
  | num n => exact ⟨[], rfl⟩
  | str s => exact ⟨[], rfl⟩
  | obj fs => exact ⟨[], rfl⟩

/-- C1 (amended): the collector completes and returns a (possibly empty)
result for every dictionary and every unit whose fields have the shapes
the data model documents (`WellShapedUnit`); outside that space it can
throw (see the counterexample). -/
theorem collector_total_on_wellShaped (unit : JSValue) (rm : RulesMap)
    (h : WellShapedUnit unit = true) : ∃ l, getUnitCompNotes unit rm = .ok l := by
  unfold WellShapedUnit at h
  simp only [Bool.and_eq_true] at h
  obtain ⟨⟨⟨⟨⟨⟨⟨⟨⟨⟨⟨hnn, hname⟩, hmount⟩, hsr⟩, hweap⟩, hequip⟩, hmag⟩, hitems⟩, harmor⟩,
    hopts⟩, hmounts⟩, hcmd⟩ := h
  unfold getUnitCompNotes
  rw [getUnitNoteTrace_eval unit rm hnn]
  obtain ⟨n1, e1⟩ := tryAddName_ok (lookupNote rm) hname
  obtain ⟨n2, e2⟩ := mountField_ok (lookupNote rm) hmount
  obtain ⟨n3, e3⟩ := specialRulesField_ok (lookupNote rm) hsr
  obtain ⟨n4, e4⟩ := resolveSeqField_ok (lookupNote rm) hweap
  obtain ⟨n5, e5⟩ := equipmentField_ok (lookupNote rm) hequip
  obtain ⟨n6, e6⟩ := resolveSeqField_ok (lookupNote rm) hmag
  obtain ⟨n7, e7⟩ := itemsField_ok (lookupNote rm) hitems
  obtain ⟨n8, e8⟩ := armorField_ok (lookupNote rm) harmor
  obtain ⟨n9, e9⟩ := resolveSeqField_ok (lookupNote rm) hopts
  obtain ⟨n10, e10⟩ := mountsField_ok (lookupNote rm) hmounts
  obtain ⟨n11, e11⟩ := commandField1_ok (lookupNote rm) hcmd
  obtain ⟨n12, e12⟩ := commandField2_ok (lookupNote rm) hcmd
  rw [show notesUnitName (lookupNote rm) unit = tryAddName (lookupNote rm) unit from rfl]
  simp only [e1, e2, e3, e4, e5, e6, e7, e8, e9, e10, e11, e12, exceptBind_ok]
  exact ⟨_, rfl⟩

/-- C1 counterexample: the collector does throw on JSON-like units of
undocumented shape — a truthy non-array `equipment` value (`forEach` is
not a function), and a `name` field holding a name-bearing object
(`toLowerCase` is not a function). -/
theorem collector_throws_on_nonarray_equipment :
    getUnitCompNotes (.obj [("equipment", .str "sword")]) dictEx = .error () ∧
      getUnitCompNotes (.obj [("name", .obj [("name", .str "Prince")])]) dictEx = .error () :=
  ⟨by decide, by decide⟩

def uC1 : JSValue :=
  .obj [("name", .str "High Elf Prince"),
        ("mount", .str "Griffon"),
        ("specialRules", .arr [.str "Martial Prowess, Valour of Ages"]),
        ("weapons", .arr [.str "Sword of Might"]),
        ("equipment", .arr [.obj [("active", .bool true), ("name_en", .str "Gromril Armour")]]),
        ("items", .arr [.obj [("selected", .arr [.str "Sword of Might"])]]),
        ("command", .arr [.obj [("active", .bool true), ("name", .str "Standard Bearer"),
          ("magic", .obj [("selected", .arr [.str "Griffon"])])]])]

theorem collector_total_on_wellShaped_witness :
    WellShapedUnit uC1 = true ∧ ∃ l, getUnitCompNotes uC1 dictEx = .ok l :=
  ⟨by decide, collector_total_on_wellShaped uC1 dictEx (by decide)⟩

/-! ## Provenance: every collected note is some value of the lookup -/

theorem exceptBind_ok_inv {α β : Type} {x : Except Unit α} {f : α → Except Unit β} {b : β}
    (h : (x >>= f) = .ok b) : ∃ a, x = .ok a ∧ f a = .ok b := by
  cases x with
  | error e => simp [Bind.bind, Except.bind] at h
  | ok a => exact ⟨a, rfl, by simpa [Bind.bind, Except.bind] using h⟩

theorem exceptOk_inj {α : Type} {a b : α} (h : (Except.ok a : Except Unit α) = .ok b) :
    a = b := by
  injection h

theorem exceptPure_inj {α : Type} {a b : α} (h : (pure a : Except Unit α) = .ok b) :
    a = b := by
  rw [exceptPure_ok] at h
  injection h

/-- `x` is a note the lookup can produce. -/
def NoteOf (look : String → Option String) (x : String) : Prop :=
  ∃ k, look k = some x

theorem lookupNote_ne_empty {rm : RulesMap} {k : String} {n : String}
    (h : lookupNote rm k = some n) : n ≠ "" := by
  unfold lookupNote at h
  cases hE : lookupEntry rm k with
  | none => rw [hE] at h; simp at h
  | some e =>
      rw [hE] at h
      have h2 : (match e.compNote with
          | some n => if n = "" then none else some n
          | none => none) = some n := h
      cases he : e.compNote with
      | none => rw [he] at h2; simp at h2
      | some m =>
          rw [he] at h2
          have h3 : (if m = "" then none else some m) = some n := h2
          by_cases hm : m = ""
          · rw [if_pos hm] at h3; simp at h3
          · rw [if_neg hm] at h3
            injection h3 with h3
            subst h3
            exact hm

theorem addCompNoteStr_mem {look : String → Option String} {s x : String}
    (h : x ∈ addCompNoteStr look s) : NoteOf look x := by
  unfold addCompNoteStr at h
  by_cases hs : s = ""
  · rw [if_pos hs] at h; simp at h
  · rw [if_neg hs] at h
    cases hl : look (canonKey s) with
    | none => rw [hl] at h; simp at h
    | some n =>
        rw [hl] at h
        rw [List.mem_singleton] at h
        subst h
        exact ⟨canonKey s, hl⟩

theorem addCompNote_mem {look : String → Option String} {v : JSValue} {ns : List String}
    (h : addCompNote look v = .ok ns) {x : String} (hx : x ∈ ns) : NoteOf look x := by
  unfold addCompNote at h
  cases v with
  | str s =>
      injection h with h
      subst h
      exact addCompNoteStr_mem hx
  | undef => rw [if_neg (by simp [jsTruthy])] at h; injection h with h; subst h; simp at hx
  | null => rw [if_neg (by simp [jsTruthy])] at h; injection h with h; subst h; simp at hx
  | bool b =>
      by_cases hb : jsTruthy (.bool b) = true
      · rw [if_pos hb] at h; exact absurd h (by simp)
      · rw [if_neg hb] at h; injection h with h; subst h; simp at hx
  | num n =>
      by_cases hb : jsTruthy (.num n) = true
      · rw [if_pos hb] at h; exact absurd h (by simp)
      · rw [if_neg hb] at h; injection h with h; subst h; simp at hx
  | arr ys => rw [if_pos (by simp [jsTruthy])] at h; exact absurd h (by simp)
  | obj fs => rw [if_pos (by simp [jsTruthy])] at h; exact absurd h (by simp)

theorem tryAddName_mem {look : String → Option String} {item : JSValue} {ns : List String}
    (h : tryAddName look item = .ok ns) {x : String} (hx : x ∈ ns) : NoteOf look x := by
  unfold tryAddName at h
  cases hx2 : extractName item with
  | none => rw [hx2] at h; injection h with h; subst h; simp at hx
  | some v => rw [hx2] at h; exact addCompNote_mem h hx

theorem addCommaSplit_mem {look : String → Option String} {v : JSValue} {ns : List String}
    (h : addCommaSplit look v = .ok ns) {x : String} (hx : x ∈ ns) : NoteOf look x := by
  unfold addCommaSplit at h
  cases v with
  | str s =>
      injection h with h
      subst h
      rw [List.mem_flatMap] at hx
      rcases hx with ⟨seg, _, hseg⟩
      exact addCompNoteStr_mem hseg
  | undef => exact absurd h (by simp)
  | null => exact absurd h (by simp)
  | bool b => exact absurd h (by simp)
  | num n => exact absurd h (by simp)
  | arr ys => exact absurd h (by simp)
  | obj fs => exact absurd h (by simp)

theorem equipNoteSegs_mem {look : String → Option String} {s x : String}
    (h : x ∈ equipNoteSegs look s) : NoteOf look x := by
  unfold equipNoteSegs at h
  rw [List.mem_flatMap] at h
  rcases h with ⟨seg, _, hseg⟩
  by_cases h0 : seg = ""
  · rw [if_pos h0] at hseg; simp at hseg
  · rw [if_neg h0] at hseg
    cases hl : look seg with
    | none => rw [hl] at hseg; simp at hseg
    | some n =>
        rw [hl] at hseg
        rw [List.mem_singleton] at hseg
        subst hseg
        exact ⟨seg, hl⟩

theorem foldlM_mem_invariant (f : List String → JSValue → Except Unit (List String))
    (P : String → Prop)
    (hf : ∀ a x res, f a x = .ok res → ∀ y ∈ res, y ∈ a ∨ P y) :
    ∀ (xs : List JSValue) (acc res : List String),
      xs.foldlM f acc = .ok res → ∀ y ∈ res, y ∈ acc ∨ P y := by
  intro xs
  induction xs with
  | nil =>
      intro acc res h y hy
      rw [List.foldlM_nil] at h
      rw [← exceptPure_inj h] at hy
      exact Or.inl hy
  | cons x xs ih =>
    intro acc res h y hy
    rw [List.foldlM_cons] at h
    obtain ⟨r, hr, h⟩ := exceptBind_ok_inv h
    rcases ih r res h y hy with hIn | hP
    · exact hf acc x r hr y hIn
    · exact Or.inr hP

theorem collectM_mem {look : String → Option String} {xs : List JSValue} {ns : List String}
    (h : collectM (tryAddName look) xs = .ok ns) {x : String} (hx : x ∈ ns) :
    NoteOf look x := by
  unfold collectM at h
  have := foldlM_mem_invariant _ (NoteOf look) ?_ xs [] ns h x hx
  · rcases this with h' | h'
    · simp at h'
    · exact h'
  · intro a e res hstep y hy
    obtain ⟨r, hr, hstep⟩ := exceptBind_ok_inv hstep
    rw [← exceptPure_inj hstep] at hy
    rw [List.mem_append] at hy
    rcases hy with hy | hy
    · exact Or.inl hy
    · exact Or.inr (tryAddName_mem hr hy)

theorem mountField_mem {look : String → Option String} {m : JSValue} {ns : List String}
    (h : mountField look m = .ok ns) {x : String} (hx : x ∈ ns) : NoteOf look x := by
  unfold mountField at h
  by_cases ht : jsTruthy m = true
  · rw [if_pos ht] at h
    exact tryAddName_mem h hx
  · rw [if_neg ht] at h
    injection h with h
    subst h
    simp at hx

theorem specialRulesField_mem {look : String → Option String} {sr : JSValue} {ns : List String}
    (h : specialRulesField look sr = .ok ns) {x : String} (hx : x ∈ ns) : NoteOf look x := by
  unfold specialRulesField at h
  by_cases ht : jsTruthy sr = true
  · rw [if_pos ht] at h
    cases sr with
    | arr rules =>
        have h2 : rules.foldlM (fun acc r =>
            match extractName r with
            | some n => do pure (acc ++ (← addCommaSplit look n))
            | none => pure acc) [] = .ok ns := h
        have := foldlM_mem_invariant _ (NoteOf look) ?_ rules [] ns h2 x hx
        · rcases this with h' | h'
          · simp at h'
          · exact h'
        · intro a r res hstep y hy
          cases hx2 : extractName r with
          | none =>
              rw [hx2] at hstep
              rw [← exceptPure_inj hstep] at hy
              exact Or.inl hy
          | some v =>
              rw [hx2] at hstep
              obtain ⟨r2, hr2, hstep⟩ := exceptBind_ok_inv hstep
              rw [← exceptPure_inj hstep] at hy
              rw [List.mem_append] at hy
              rcases hy with hy | hy
              · exact Or.inl hy
              · exact Or.inr (addCommaSplit_mem hr2 hy)
    | str s =>
        have h2 : (match extractName (.str s) with
            | some n => addCommaSplit look n
            | none => pure []) = .ok ns := h
        cases hx2 : extractName (.str s) with
        | none =>
            rw [hx2] at h2
            rw [← exceptPure_inj h2] at hx
            simp at hx
        | some v =>
            rw [hx2] at h2
            exact addCommaSplit_mem h2 hx
    | obj fs =>
        have h2 : (match extractName (.obj fs) with
            | some n => addCommaSplit look n
            | none => pure []) = .ok ns := h
        cases hx2 : extractName (.obj fs) with
        | none =>
            rw [hx2] at h2
            rw [← exceptPure_inj h2] at hx
            simp at hx
        | some v =>
            rw [hx2] at h2
            exact addCommaSplit_mem h2 hx
    | undef => rw [show jsTruthy .undef = false from rfl] at ht; exact absurd ht (by simp)
    | null => rw [show jsTruthy .null = false from rfl] at ht; exact absurd ht (by simp)
    | bool b =>
        have h2 : (match extractName (.bool b) with
            | some n => addCommaSplit look n
            | none => pure []) = .ok ns := h
        have hx2 : extractName (.bool b) = none := by
          unfold extractName
          cases jsTruthy (.bool b) <;> simp
        rw [hx2] at h2
        rw [← exceptPure_inj h2] at hx
        simp at hx
    | num n =>
        have h2 : (match extractName (.num n) with
            | some n => addCommaSplit look n
            | none => pure []) = .ok ns := h
        have hx2 : extractName (.num n) = none := by
          unfold extractName
          cases jsTruthy (.num n) <;> simp
        rw [hx2] at h2
        rw [← exceptPure_inj h2] at hx
        simp at hx
  · rw [if_neg ht] at h
    injection h with h
    subst h
    simp at hx

theorem resolveSeqField_mem {look : String → Option String} {w : JSValue} {ns : List String}
    (h : resolveSeqField look w = .ok ns) {x : String} (hx : x ∈ ns) : NoteOf look x := by
  unfold resolveSeqField at h
  cases w with
  | arr xs =>
      have h2 : collectM (tryAddName look) xs = .ok ns := h
      exact collectM_mem h2 hx
  | undef => injection h with h; subst h; simp at hx
  | null => injection h with h; subst h; simp at hx
  | bool b => injection h with h; subst h; simp at hx
  | num n => injection h with h; subst h; simp at hx
  | str s => injection h with h; subst h; simp at hx
  | obj fs => injection h with h; subst h; simp at hx

theorem equipmentField_mem {look : String → Option String} {e : JSValue} {ns : List String}
    (h : equipmentField look e = .ok ns) {x : String} (hx : x ∈ ns) : NoteOf look x := by
  unfold equipmentField at h
  by_cases ht : jsTruthy e = true
  · rw [if_pos ht] at h
    cases e with
    | arr xs =>
        have h2 : xs.foldlM (fun acc item => do
            let act ← jsGet item "active"
            if jsTruthy act then do
              let ne ← jsGet item "name_en"
              match ne with
              | .str s => pure (acc ++ equipNoteSegs look (removeBraces s))
              | .undef => pure (acc ++ equipNoteSegs look "")
              | .null => pure (acc ++ equipNoteSegs look "")
              | _ => .error ()
            else pure acc) [] = .ok ns := h
        have := foldlM_mem_invariant _ (NoteOf look) ?_ xs [] ns h2 x hx
        · rcases this with h' | h'
          · simp at h'
          · exact h'
        · intro a it res hstep y hy
          obtain ⟨act, hact, hstep⟩ := exceptBind_ok_inv hstep
          by_cases hT : jsTruthy act = true
          · rw [if_pos hT] at hstep
            obtain ⟨ne, hne, hstep⟩ := exceptBind_ok_inv hstep
            cases ne with
            | str s =>
                have h3 : (pure (a ++ equipNoteSegs look (removeBraces s)) :
                    Except Unit (List String)) = .ok res := hstep
                rw [← exceptPure_inj h3] at hy
                rw [List.mem_append] at hy
                rcases hy with hy | hy
                · exact Or.inl hy
                · exact Or.inr (equipNoteSegs_mem hy)
            | undef =>
                have h3 : (pure (a ++ equipNoteSegs look "") :
                    Except Unit (List String)) = .ok res := hstep
                rw [← exceptPure_inj h3] at hy
                rw [List.mem_append] at hy
                rcases hy with hy | hy
                · exact Or.inl hy
                · exact Or.inr (equipNoteSegs_mem hy)
            | null =>
                have h3 : (pure (a ++ equipNoteSegs look "") :
                    Except Unit (List String)) = .ok res := hstep
                rw [← exceptPure_inj h3] at hy
                rw [List.mem_append] at hy
                rcases hy with hy | hy
                · exact Or.inl hy
                · exact Or.inr (equipNoteSegs_mem hy)
            | bool b =>
                have h3 : (Except.error () : Except Unit (List String)) = .ok res := hstep
                exact absurd h3 (by simp)
            | num n =>
                have h3 : (Except.error () : Except Unit (List String)) = .ok res := hstep
                exact absurd h3 (by simp)
            | arr ys =>
                have h3 : (Except.error () : Except Unit (List String)) = .ok res := hstep
                exact absurd h3 (by simp)
            | obj fs =>
                have h3 : (Except.error () : Except Unit (List String)) = .ok res := hstep
                exact absurd h3 (by simp)
          · rw [if_neg hT] at hstep
            rw [← exceptPure_inj hstep] at hy
            exact Or.inl hy
    | undef =>
        have h2 : (Except.error () : Except Unit (List String)) = .ok ns := h
        exact absurd h2 (by simp)
    | null =>
        have h2 : (Except.error () : Except Unit (List String)) = .ok ns := h
        exact absurd h2 (by simp)
    | bool b =>
        have h2 : (Except.error () : Except Unit (List String)) = .ok ns := h
        exact absurd h2 (by simp)
    | num n =>
        have h2 : (Except.error () : Except Unit (List String)) = .ok ns := h
        exact absurd h2 (by simp)
    | str s =>
        have h2 : (Except.error () : Except Unit (List String)) = .ok ns := h
        exact absurd h2 (by simp)
    | obj fs =>
        have h2 : (Except.error () : Except Unit (List String)) = .ok ns := h
        exact absurd h2 (by simp)
  · rw [if_neg ht] at h
    injection h with h
    subst h
    simp at hx

theorem itemsField_mem {look : String → Option String} {it : JSValue} {ns : List String}
    (h : itemsField look it = .ok ns) {x : String} (hx : x ∈ ns) : NoteOf look x := by
  unfold itemsField at h
  cases it with
  | arr cats =>
      have h2 : cats.foldlM (fun acc cat => do
          let sel ← jsGet cat "selected"
          match sel with
          | .arr xs => do pure (acc ++ (← collectM (tryAddName look) xs))
          | _ => pure acc) [] = .ok ns := h
      have := foldlM_mem_invariant _ (NoteOf look) ?_ cats [] ns h2 x hx
      · rcases this with h' | h'
        · simp at h'
        · exact h'
      · intro a cat res hstep y hy
        obtain ⟨sel, hsel, hstep⟩ := exceptBind_ok_inv hstep
        cases sel with
        | arr xs =>
            have h3 : (collectM (tryAddName look) xs >>= fun r =>
                pure (a ++ r) : Except Unit (List String)) = .ok res := hstep
            obtain ⟨r, hr, h4⟩ := exceptBind_ok_inv h3
            rw [← exceptPure_inj h4] at hy
            rw [List.mem_append] at hy
            rcases hy with hy | hy
            · exact Or.inl hy
            · exact Or.inr (collectM_mem hr hy)
        | undef =>
            have h3 : (pure a : Except Unit (List String)) = .ok res := hstep
            rw [← exceptPure_inj h3] at hy
            exact Or.inl hy
        | null =>
            have h3 : (pure a : Except Unit (List String)) = .ok res := hstep
            rw [← exceptPure_inj h3] at hy
            exact Or.inl hy
        | bool b =>
            have h3 : (pure a : Except Unit (List String)) = .ok res := hstep
            rw [← exceptPure_inj h3] at hy
            exact Or.inl hy
        | num n =>
            have h3 : (pure a : Except Unit (List String)) = .ok res := hstep
            rw [← exceptPure_inj h3] at hy
            exact Or.inl hy
        | str s =>
            have h3 : (pure a : Except Unit (List String)) = .ok res := hstep
            rw [← exceptPure_inj h3] at hy
            exact Or.inl hy
        | obj fs =>
            have h3 : (pure a : Except Unit (List String)) = .ok res := hstep
            rw [← exceptPure_inj h3] at hy
            exact Or.inl hy
  | undef => injection h with h; subst h; simp at hx
  | null => injection h with h; subst h; simp at hx
  | bool b => injection h with h; subst h; simp at hx
  | num n => injection h with h; subst h; simp at hx
  | str s => injection h with h; subst h; simp at hx
  | obj fs => injection h with h; subst h; simp at hx

theorem armorField_mem {look : String → Option String} {a : JSValue} {ns : List String}
    (h : armorField look a = .ok ns) {x : String} (hx : x ∈ ns) : NoteOf look x := by
  unfold armorField at h
  by_cases ht : jsTruthy a = true
  · rw [if_pos ht] at h
    cases a with
    | arr xs =>
        have h2 : collectM (tryAddName look) xs = .ok ns := h
        exact collectM_mem h2 hx
    | undef => rw [show jsTruthy .undef = false from rfl] at ht; exact absurd ht (by simp)
    | null => rw [show jsTruthy .null = false from rfl] at ht; exact absurd ht (by simp)
    | bool b =>
        have h2 : tryAddName look (.bool b) = .ok ns := h
        exact tryAddName_mem h2 hx
    | num n =>
        have h2 : tryAddName look (.num n) = .ok ns := h
        exact tryAddName_mem h2 hx
    | str s =>
        have h2 : tryAddName look (.str s) = .ok ns := h
        exact tryAddName_mem h2 hx
    | obj fs =>
        have h2 : tryAddName look (.obj fs) = .ok ns := h
        exact tryAddName_mem h2 hx
  · rw [if_neg ht] at h
    injection h with h
    subst h
    simp at hx

theorem mountsField_mem {look : String → Option String} {m : JSValue} {ns : List String}
    (h : mountsField look m = .ok ns) {x : String} (hx : x ∈ ns) : NoteOf look x := by
  unfold mountsField at h
  by_cases ht : jsTruthy m = true
  · rw [if_pos ht] at h
    cases m with
    | arr xs =>
        have h2 : xs.foldlM (fun acc mount => do
            let act ← jsGet mount "active"
            if jsTruthy act then do
              let ne ← jsGet mount "name_en"
              match ne with
              | .str s =>
                  match look (canonKey s) with
                  | some n => pure (acc ++ [n])
                  | none => pure acc
              | .undef =>
                  match look "undefined" with
                  | some n => pure (acc ++ [n])
                  | none => pure acc
              | .null =>
                  match look "undefined" with
                  | some n => pure (acc ++ [n])
                  | none => pure acc
              | _ => .error ()
            else pure acc) [] = .ok ns := h
        have := foldlM_mem_invariant _ (NoteOf look) ?_ xs [] ns h2 x hx
        · rcases this with h' | h'
          · simp at h'
          · exact h'
        · intro a mount res hstep y hy
          obtain ⟨act, hact, hstep⟩ := exceptBind_ok_inv hstep
          by_cases hT : jsTruthy act = true
          · rw [if_pos hT] at hstep
            obtain ⟨ne, hne, hstep⟩ := exceptBind_ok_inv hstep
            cases ne with
            | str s =>
                have h3 : (match look (canonKey s) with
                    | some n => (pure (a ++ [n]) : Except Unit (List String))
                    | none => pure a) = .ok res := hstep
                cases hl : look (canonKey s) with
                | some n =>
                    rw [hl] at h3
                    rw [← exceptPure_inj h3] at hy
                    rw [List.mem_append, List.mem_singleton] at hy
                    rcases hy with hy | rfl
                    · exact Or.inl hy
                    · exact Or.inr ⟨canonKey s, hl⟩
                | none =>
                    rw [hl] at h3
                    rw [← exceptPure_inj h3] at hy
                    exact Or.inl hy
            | undef =>
                have h3 : (match look "undefined" with
                    | some n => (pure (a ++ [n]) : Except Unit (List String))
                    | none => pure a) = .ok res := hstep
                cases hl : look "undefined" with
                | some n =>
                    rw [hl] at h3
                    rw [← exceptPure_inj h3] at hy
                    rw [List.mem_append, List.mem_singleton] at hy
                    rcases hy with hy | rfl
                    · exact Or.inl hy
                    · exact Or.inr ⟨"undefined", hl⟩
                | none =>
                    rw [hl] at h3
                    rw [← exceptPure_inj h3] at hy
                    exact Or.inl hy
            | null =>
                have h3 : (match look "undefined" with
                    | some n => (pure (a ++ [n]) : Except Unit (List String))
                    | none => pure a) = .ok res := hstep
                cases hl : look "undefined" with
                | some n =>
                    rw [hl] at h3
                    rw [← exceptPure_inj h3] at hy
                    rw [List.mem_append, List.mem_singleton] at hy
                    rcases hy with hy | rfl
                    · exact Or.inl hy
                    · exact Or.inr ⟨"undefined", hl⟩
                | none =>
                    rw [hl] at h3
                    rw [← exceptPure_inj h3] at hy
                    exact Or.inl hy
            | bool b =>
                have h3 : (Except.error () : Except Unit (List String)) = .ok res := hstep
                exact absurd h3 (by simp)
            | num n =>
                have h3 : (Except.error () : Except Unit (List String)) = .ok res := hstep
                exact absurd h3 (by simp)
            | arr ys =>
                have h3 : (Except.error () : Except Unit (List String)) = .ok res := hstep
                exact absurd h3 (by simp)
            | obj fs =>
                have h3 : (Except.error () : Except Unit (List String)) = .ok res := hstep
                exact absurd h3 (by simp)
          · rw [if_neg hT] at hstep
            rw [← exceptPure_inj hstep] at hy
            exact Or.inl hy
    | undef => rw [show jsTruthy .undef = false from rfl] at ht; exact absurd ht (by simp)
    | null => rw [show jsTruthy .null = false from rfl] at ht; exact absurd ht (by simp)
    | bool b =>
        have h2 : (Except.error () : Except Unit (List String)) = .ok ns := h
        exact absurd h2 (by simp)
    | num n =>
        have h2 : (Except.error () : Except Unit (List String)) = .ok ns := h
        exact absurd h2 (by simp)
    | str s =>
        have h2 : (Except.error () : Except Unit (List String)) = .ok ns := h
        exact absurd h2 (by simp)
    | obj fs =>
        have h2 : (Except.error () : Except Unit (List String)) = .ok ns := h
        exact absurd h2 (by simp)
  · rw [if_neg ht] at h
    injection h with h
    subst h
    simp at hx

theorem commandField1_mem {look : String → Option String} {c : JSValue} {ns : List String}
    (h : commandField1 look c = .ok ns) {x : String} (hx : x ∈ ns) : NoteOf look x := by
  unfold commandField1 at h
  cases c with
  | arr xs =>
      have h2 : xs.foldlM (fun acc ci => do
          let act ← jsGet ci "active"
          if jsTruthy act then
            match extractName ci with
            | some n => do pure (acc ++ (← addCommaSplit look n))
            | none => pure acc
          else pure acc) [] = .ok ns := h
      have := foldlM_mem_invariant _ (NoteOf look) ?_ xs [] ns h2 x hx
      · rcases this with h' | h'
        · simp at h'
        · exact h'
      · intro a ci res hstep y hy
        obtain ⟨act, hact, hstep⟩ := exceptBind_ok_inv hstep
        by_cases hT : jsTruthy act = true
        · rw [if_pos hT] at hstep
          cases hx2 : extractName ci with
          | none =>
              rw [hx2] at hstep
              rw [← exceptPure_inj hstep] at hy
              exact Or.inl hy
          | some v =>
              rw [hx2] at hstep
              obtain ⟨r, hr, h4⟩ := exceptBind_ok_inv hstep
              rw [← exceptPure_inj h4] at hy
              rw [List.mem_append] at hy
              rcases hy with hy | hy
              · exact Or.inl hy
              · exact Or.inr (addCommaSplit_mem hr hy)
        · rw [if_neg hT] at hstep
          rw [← exceptPure_inj hstep] at hy
          exact Or.inl hy
  | undef => injection h with h; subst h; simp at hx
  | null => injection h with h; subst h; simp at hx
  | bool b => injection h with h; subst h; simp at hx
  | num n => injection h with h; subst h; simp at hx
  | str s => injection h with h; subst h; simp at hx
  | obj fs => injection h with h; subst h; simp at hx

theorem commandField2_mem {look : String → Option String} {c : JSValue} {ns : List String}
    (h : commandField2 look c = .ok ns) {x : String} (hx : x ∈ ns) : NoteOf look x := by
  unfold commandField2 at h
  cases c with
  | arr xs =>
      have h2 : xs.foldlM (fun acc ci => do
          let act ← jsGet ci "active"
          if jsTruthy act then do
            let mg ← jsGet ci "magic"
            if jsTruthy mg then do
              let sel ← jsGet mg "selected"
              match sel with
              | .arr ys => do pure (acc ++ (← collectM (tryAddName look) ys))
              | _ => pure acc
            else pure acc
          else pure acc) [] = .ok ns := h
      have := foldlM_mem_invariant _ (NoteOf look) ?_ xs [] ns h2 x hx
      · rcases this with h' | h'
        · simp at h'
        · exact h'
      · intro a ci res hstep y hy
        obtain ⟨act, hact, hstep⟩ := exceptBind_ok_inv hstep
        by_cases hT : jsTruthy act = true
        · rw [if_pos hT] at hstep
          obtain ⟨mg, hmg, hstep⟩ := exceptBind_ok_inv hstep
          by_cases hM : jsTruthy mg = true
          · rw [if_pos hM] at hstep
            obtain ⟨sel, hsel, hstep⟩ := exceptBind_ok_inv hstep
            cases sel with
            | arr ys =>
                have h3 : (collectM (tryAddName look) ys >>= fun r =>
                    pure (a ++ r) : Except Unit (List String)) = .ok res := hstep
                obtain ⟨r, hr, h4⟩ := exceptBind_ok_inv h3
                rw [← exceptPure_inj h4] at hy
                rw [List.mem_append] at hy
                rcases hy with hy | hy
                · exact Or.inl hy
                · exact Or.inr (collectM_mem hr hy)
            | undef =>
                have h3 : (pure a : Except Unit (List String)) = .ok res := hstep
                rw [← exceptPure_inj h3] at hy
                exact Or.inl hy
            | null =>
                have h3 : (pure a : Except Unit (List String)) = .ok res := hstep
                rw [← exceptPure_inj h3] at hy
                exact Or.inl hy
            | bool b =>
                have h3 : (pure a : Except Unit (List String)) = .ok res := hstep
                rw [← exceptPure_inj h3] at hy
                exact Or.inl hy
            | num n =>
                have h3 : (pure a : Except Unit (List String)) = .ok res := hstep
                rw [← exceptPure_inj h3] at hy
                exact Or.inl hy
            | str s =>
                have h3 : (pure a : Except Unit (List String)) = .ok res := hstep
                rw [← exceptPure_inj h3] at hy
                exact Or.inl hy
            | obj fs =>
                have h3 : (pure a : Except Unit (List String)) = .ok res := hstep
                rw [← exceptPure_inj h3] at hy
                exact Or.inl hy
          · rw [if_neg hM] at hstep
            rw [← exceptPure_inj hstep] at hy
            exact Or.inl hy
        · rw [if_neg hT] at hstep
          rw [← exceptPure_inj hstep] at hy
          exact Or.inl hy
  | undef => injection h with h; subst h; simp at hx
  | null => injection h with h; subst h; simp at hx
  | bool b => injection h with h; subst h; simp at hx
  | num n => injection h with h; subst h; simp at hx
  | str s => injection h with h; subst h; simp at hx
  | obj fs => injection h with h; subst h; simp at hx

theorem getUnitNoteTrace_mem {u : JSValue} {rm : RulesMap} {t : List String}
    (h : getUnitNoteTrace u rm = .ok t) {x : String} (hx : x ∈ t) :
    NoteOf (lookupNote rm) x := by
  unfold getUnitNoteTrace at h
  obtain ⟨n1, e1, h⟩ := exceptBind_ok_inv h
  obtain ⟨v2, f2, h⟩ := exceptBind_ok_inv h
  obtain ⟨n2, e2, h⟩ := exceptBind_ok_inv h
  obtain ⟨v3, f3, h⟩ := exceptBind_ok_inv h
  obtain ⟨n3, e3, h⟩ := exceptBind_ok_inv h
  obtain ⟨v4, f4, h⟩ := exceptBind_ok_inv h
  obtain ⟨n4, e4, h⟩ := exceptBind_ok_inv h
  obtain ⟨v5, f5, h⟩ := exceptBind_ok_inv h
  obtain ⟨n5, e5, h⟩ := exceptBind_ok_inv h
  obtain ⟨v6, f6, h⟩ := exceptBind_ok_inv h
  obtain ⟨n6, e6, h⟩ := exceptBind_ok_inv h
  obtain ⟨v7, f7, h⟩ := exceptBind_ok_inv h
  obtain ⟨n7, e7, h⟩ := exceptBind_ok_inv h
  obtain ⟨v8, f8, h⟩ := exceptBind_ok_inv h
  obtain ⟨n8, e8, h⟩ := exceptBind_ok_inv h
  obtain ⟨v9, f9, h⟩ := exceptBind_ok_inv h
  obtain ⟨n9, e9, h⟩ := exceptBind_ok_inv h
  obtain ⟨v10, f10, h⟩ := exceptBind_ok_inv h
  obtain ⟨n10, e10, h⟩ := exceptBind_ok_inv h
  obtain ⟨v11, f11, h⟩ := exceptBind_ok_inv h
  obtain ⟨n11, e11, h⟩ := exceptBind_ok_inv h
  obtain ⟨v12, f12, h⟩ := exceptBind_ok_inv h
  obtain ⟨n12, e12, h⟩ := exceptBind_ok_inv h
  rw [← exceptPure_inj h] at hx
  simp only [List.mem_append] at hx
  rcases hx with ((((((((((hx | hx) | hx) | hx) | hx) | hx) | hx) | hx) | hx) | hx) | hx) | hx
  · exact tryAddName_mem e1 hx
  · exact mountField_mem e2 hx
  · exact specialRulesField_mem e3 hx
  · exact resolveSeqField_mem e4 hx
  · exact equipmentField_mem e5 hx
  · exact resolveSeqField_mem e6 hx
  · exact itemsField_mem e7 hx
  · exact armorField_mem e8 hx
  · exact resolveSeqField_mem e9 hx
  · exact mountsField_mem e10 hx
  · exact commandField1_mem e11 hx
  · exact commandField2_mem e12 hx

theorem getUnitCompNotes_mem_trace {u : JSValue} {rm : RulesMap} {l : List String}
    (h : getUnitCompNotes u rm = .ok l) {x : String} (hx : x ∈ l) :
    NoteOf (lookupNote rm) x := by
  unfold getUnitCompNotes at h
  rcases exceptMap_ok.mp h with ⟨t, ht, rfl⟩
  rw [dedupF_mem] at hx
  exact getUnitNoteTrace_mem ht hx

theorem getUnitCompNotes_no_empty {u : JSValue} {rm : RulesMap} {l : List String}
    (h : getUnitCompNotes u rm = .ok l) : "" ∉ l := by
  intro hmem
  rcases getUnitCompNotes_mem_trace h hmem with ⟨k, hk⟩
  exact lookupNote_ne_empty hk rfl

/-! ## The JS default string sort order is a linear order -/

theorem char_eq_of_toNat_eq {a b : Char} (h : a.toNat = b.toNat) : a = b := by
  cases a with | mk av ah =>
  cases b with | mk bv bh =>
  simp only [Char.toNat] at h
  congr 1
  exact UInt32.ext h

theorem charListLeB_total : ∀ l1 l2 : List Char,
    charListLeB l1 l2 = true ∨ charListLeB l2 l1 = true := by
  intro l1
  induction l1 with
  | nil => intro l2; exact Or.inl rfl
  | cons a as ih =>
    intro l2
    cases l2 with
    | nil => exact Or.inr rfl
    | cons b bs =>
        simp only [charListLeB]
        rcases Nat.lt_trichotomy a.toNat b.toNat with h | h | h
        · left; rw [if_pos h]
        · rw [if_neg (by omega), if_neg (by omega), if_neg (by omega), if_neg (by omega)]
          exact ih bs
        · right; rw [if_pos h]

theorem charListLeB_trans : ∀ l1 l2 l3 : List Char,
    charListLeB l1 l2 = true → charListLeB l2 l3 = true → charListLeB l1 l3 = true := by
  intro l1
  induction l1 with
  | nil => intro l2 l3 _ _; rfl
  | cons a as ih =>
    intro l2 l3 h1 h2
    cases l2 with
    | nil => exact absurd h1 (by simp [charListLeB])
    | cons b bs =>
        cases l3 with
        | nil => exact absurd h2 (by simp [charListLeB])
        | cons c cs =>
            simp only [charListLeB] at h1 h2 ⊢
            split_ifs at h1 h2 ⊢ <;>
              first
                | rfl
                | omega
                | (exact Bool.noConfusion h1)
                | (exact Bool.noConfusion h2)
                | (exact ih bs cs h1 h2)

theorem charListLeB_antisymm : ∀ l1 l2 : List Char,
    charListLeB l1 l2 = true → charListLeB l2 l1 = true → l1 = l2 := by
  intro l1
  induction l1 with
  | nil =>
      intro l2 _ h2
      cases l2 with
      | nil => rfl
      | cons b bs => exact absurd h2 (by simp [charListLeB])
  | cons a as ih =>
    intro l2 h1 h2
    cases l2 with
    | nil => exact absurd h1 (by simp [charListLeB])
    | cons b bs =>
        simp only [charListLeB] at h1 h2
        split_ifs at h1 h2 <;>
          first
            | omega
            | (exact Bool.noConfusion h1)
            | (exact Bool.noConfusion h2)
            | (rw [char_eq_of_toNat_eq (by omega : a.toNat = b.toNat), ih bs h1 h2])

instance : IsTotal String jsStrLe :=
  ⟨fun s t => charListLeB_total s.data t.data⟩

instance : IsTrans String jsStrLe :=
  ⟨fun a b c h1 h2 => charListLeB_trans a.data b.data c.data h1 h2⟩

instance : IsAntisymm String jsStrLe :=
  ⟨fun a b h1 h2 => by
    have h := charListLeB_antisymm a.data b.data h1 h2
    cases a with | mk l1 =>
    cases b with | mk l2 =>
    simp only at h
    rw [h]⟩

/-! ## Properties of the army-summary accumulation -/

theorem allArmyGo_ok_iff (rm : RulesMap) :
    ∀ (units : List JSValue) (acc : List String),
      (∃ r, allArmyGo rm units acc = .ok r) ↔
        (∀ u ∈ units, ∃ ns, getUnitCompNotes u rm = .ok ns) := by
  intro units
  induction units with
  | nil =>
      intro acc
      constructor
      · intro _ u hu; simp at hu
      · intro _; exact ⟨acc, rfl⟩
  | cons u us ih =>
    intro acc
    constructor
    · rintro ⟨r, hr⟩
      unfold allArmyGo at hr
      obtain ⟨ns, hns, hr⟩ := exceptBind_ok_inv hr
      intro v hv
      rcases List.mem_cons.mp hv with rfl | hv
      · exact ⟨ns, hns⟩
      · exact ((ih _).mp ⟨r, hr⟩) v hv
    · intro hall
      obtain ⟨ns, hns⟩ := hall u (by simp)
      obtain ⟨r, hr⟩ := (ih (ns.foldl insertNote acc)).mpr
        (fun v hv => hall v (by simp [hv]))
      refine ⟨r, ?_⟩
      unfold allArmyGo
      rw [hns, exceptBind_ok]
      exact hr

theorem allArmyGo_mem (rm : RulesMap) :
    ∀ (units : List JSValue) (acc r : List String), allArmyGo rm units acc = .ok r →
      ∀ x, x ∈ r ↔
        (x ∈ acc ∨ ∃ u ∈ units, ∃ ns, getUnitCompNotes u rm = .ok ns ∧ x ∈ ns) := by
  intro units
  induction units with
  | nil =>
      intro acc r h x
      unfold allArmyGo at h
      injection h with h
      subst h
      simp
  | cons u us ih =>
    intro acc r h x
    unfold allArmyGo at h
    obtain ⟨ns, hns, h⟩ := exceptBind_ok_inv h
    rw [ih _ r h x, foldl_insertNote_mem]
    constructor
    · rintro ((hx | hx) | ⟨v, hv, ns', hns', hx⟩)
      · exact Or.inl hx
      · exact Or.inr ⟨u, by simp, ns, hns, hx⟩
      · exact Or.inr ⟨v, by simp [hv], ns', hns', hx⟩
    · rintro (hx | ⟨v, hv, ns', hns', hx⟩)
      · exact Or.inl (Or.inl hx)
      · rcases List.mem_cons.mp hv with rfl | hv2
        · rw [hns] at hns'
          injection hns' with hns'
          subst hns'
          exact Or.inl (Or.inr hx)
        · exact Or.inr ⟨v, hv2, ns', hns', hx⟩

theorem allArmyGo_nodup (rm : RulesMap) :
    ∀ (units : List JSValue) (acc r : List String), acc.Nodup →
      allArmyGo rm units acc = .ok r → r.Nodup := by
  intro units
  induction units with
  | nil =>
      intro acc r hacc h
      unfold allArmyGo at h
      injection h with h
      subst h
      exact hacc
  | cons u us ih =>
    intro acc r hacc h
    unfold allArmyGo at h
    obtain ⟨ns, hns, h⟩ := exceptBind_ok_inv h
    exact ih _ r (foldl_insertNote_nodup ns acc hacc) h

theorem allArmyNotes_ok_props (army : List JSValue) (rm : RulesMap) (l : List String)
    (h : getAllArmyCompNotes (.arr army) rm = .ok l) :
    l.Nodup ∧ l.Sorted jsStrLe ∧
      (∀ x, x ∈ l ↔ ∃ u ∈ army, ∃ ns, getUnitCompNotes u rm = .ok ns ∧ x ∈ ns) := by
  unfold getAllArmyCompNotes at h
  rcases exceptMap_ok.mp h with ⟨r, hr, rfl⟩
  refine ⟨?_, ?_, ?_⟩
  · exact (List.perm_insertionSort jsStrLe r).symm.nodup
      (allArmyGo_nodup rm army [] r List.nodup_nil hr)
  · exact List.sorted_insertionSort jsStrLe r
  · intro x
    rw [(List.perm_insertionSort jsStrLe r).mem_iff, allArmyGo_mem rm army [] r hr x]
    simp

/-- C6: `getAllArmyCompNotes` returns the union of the per-unit note sets
with each note exactly once, sorted ascending in the JS default string
order, and the result is identical for every permutation of the input
army. -/
theorem allArmyNotes_sorted_dedup_perm_invariant (army1 army2 : List JSValue) (rm : RulesMap)
    (hp : army1.Perm army2) :
    getAllArmyCompNotes (.arr army1) rm = getAllArmyCompNotes (.arr army2) rm ∧
      ∀ l, getAllArmyCompNotes (.arr army1) rm = .ok l →
        l.Nodup ∧ l.Sorted jsStrLe ∧
          (∀ x, x ∈ l ↔ ∃ u ∈ army1, ∃ ns, getUnitCompNotes u rm = .ok ns ∧ x ∈ ns) := by
  refine ⟨?_, fun l hl => allArmyNotes_ok_props army1 rm l hl⟩
  by_cases hall : ∀ u ∈ army1, ∃ ns, getUnitCompNotes u rm = .ok ns
  · have hall2 : ∀ u ∈ army2, ∃ ns, getUnitCompNotes u rm = .ok ns :=
      fun u hu => hall u (hp.mem_iff.mpr hu)
    obtain ⟨r1, h1⟩ := (allArmyGo_ok_iff rm army1 []).mpr hall
    obtain ⟨r2, h2⟩ := (allArmyGo_ok_iff rm army2 []).mpr hall2
    unfold getAllArmyCompNotes
    show Except.map (List.insertionSort jsStrLe) (allArmyGo rm army1 []) =
      Except.map (List.insertionSort jsStrLe) (allArmyGo rm army2 [])
    rw [h1, h2]
    have hperm : r1.Perm r2 := by
      rw [List.perm_ext_iff_of_nodup (allArmyGo_nodup rm army1 [] r1 List.nodup_nil h1)
        (allArmyGo_nodup rm army2 [] r2 List.nodup_nil h2)]
      intro x
      rw [allArmyGo_mem rm army1 [] r1 h1 x, allArmyGo_mem rm army2 [] r2 h2 x]
      constructor
      · rintro (hx | ⟨u, hu, ns, hns, hx⟩)
        · simp at hx
        · exact Or.inr ⟨u, hp.mem_iff.mp hu, ns, hns, hx⟩
      · rintro (hx | ⟨u, hu, ns, hns, hx⟩)
        · simp at hx
        · exact Or.inr ⟨u, hp.mem_iff.mpr hu, ns, hns, hx⟩
    have hsort : List.insertionSort jsStrLe r1 = List.insertionSort jsStrLe r2 :=
      List.eq_of_perm_of_sorted
        (((List.perm_insertionSort jsStrLe r1).trans hperm).trans
          (List.perm_insertionSort jsStrLe r2).symm)
        (List.sorted_insertionSort jsStrLe r1) (List.sorted_insertionSort jsStrLe r2)
    simp [Except.map, hsort]
  · have hall2 : ¬ ∀ u ∈ army2, ∃ ns, getUnitCompNotes u rm = .ok ns :=
      fun hc => hall (fun u hu => hc u (hp.mem_iff.mp hu))
    have h1 : allArmyGo rm army1 [] = .error () := by
      cases hE : allArmyGo rm army1 [] with
      | error u => cases u; rfl
      | ok r => exact absurd ((allArmyGo_ok_iff rm army1 []).mp ⟨r, hE⟩) hall
    have h2 : allArmyGo rm army2 [] = .error () := by
      cases hE : allArmyGo rm army2 [] with
      | error u => cases u; rfl
      | ok r => exact absurd ((allArmyGo_ok_iff rm army2 []).mp ⟨r, hE⟩) hall2
    unfold getAllArmyCompNotes
    show Except.map (List.insertionSort jsStrLe) (allArmyGo rm army1 []) =
      Except.map (List.insertionSort jsStrLe) (allArmyGo rm army2 [])
    rw [h1, h2]

def uSword : JSValue := .obj [("name", .str "Sword of Might")]

def uGriffonName : JSValue := .obj [("name", .str "Griffon")]

theorem allArmyNotes_sorted_dedup_perm_invariant_witness :
    (getAllArmyCompNotes (.arr [uSword, uGriffonName]) dictEx =
        getAllArmyCompNotes (.arr [uGriffonName, uSword]) dictEx) ∧
      (["Counts as Rare choice", "No duplicate magic items"].Nodup ∧
        List.Sorted jsStrLe ["Counts as Rare choice", "No duplicate magic items"] ∧
        (∀ x, x ∈ ["Counts as Rare choice", "No duplicate magic items"] ↔
          ∃ u ∈ [uSword, uGriffonName], ∃ ns,
            getUnitCompNotes u dictEx = .ok ns ∧ x ∈ ns)) :=
  ⟨(allArmyNotes_sorted_dedup_perm_invariant [uSword, uGriffonName] [uGriffonName, uSword]
      dictEx (List.Perm.swap uGriffonName uSword [])).1,
   (allArmyNotes_sorted_dedup_perm_invariant [uSword, uGriffonName] [uGriffonName, uSword]
      dictEx (List.Perm.swap uGriffonName uSword [])).2
     ["Counts as Rare choice", "No duplicate magic items"] (by decide)⟩

/-! ## C7 development: the per-unit mapping -/

theorem objAssign_mem {acc : List (String × ArmyEntry)} {k : String} {v : ArmyEntry}
    {p : String × ArmyEntry} (h : p ∈ objAssign acc k v) : p ∈ acc ∨ p = (k, v) := by
  unfold objAssign at h
  by_cases hk : acc.any (fun p => p.1 = k) = true
  · rw [if_pos hk] at h
    rw [List.mem_map] at h
    rcases h with ⟨q, hq, hc⟩
    by_cases hq1 : q.1 = k
    · right
      rw [← hc, if_pos hq1]
    · left
      rw [← hc, if_neg hq1]
      exact hq
  · rw [if_neg hk] at h
    rw [List.mem_append, List.mem_singleton] at h
    exact h

theorem objAssign_keys {acc : List (String × ArmyEntry)} {k : String} {v : ArmyEntry} :
    (objAssign acc k v).map Prod.fst =
      if acc.any (fun p => p.1 = k) then acc.map Prod.fst else acc.map Prod.fst ++ [k] := by
  unfold objAssign
  by_cases hk : acc.any (fun p => p.1 = k) = true
  · rw [if_pos hk, if_pos hk, List.map_map]
    apply List.map_congr_left
    intro q _
    by_cases hq1 : q.1 = k
    · simp [hq1]
    · simp [hq1]
  · rw [if_neg hk, if_neg hk, List.map_append]
    rfl

theorem objAssign_keys_self {acc : List (String × ArmyEntry)} {k : String} {v : ArmyEntry} :
    k ∈ (objAssign acc k v).map Prod.fst := by
  rw [objAssign_keys]
  by_cases hk : acc.any (fun p => p.1 = k) = true
  · rw [if_pos hk]
    rcases List.any_eq_true.mp hk with ⟨p, hp, hpk⟩
    rw [List.mem_map]
    exact ⟨p, hp, of_decide_eq_true hpk⟩
  · rw [if_neg hk]
    simp

theorem objAssign_keys_mono {acc : List (String × ArmyEntry)} {k k' : String} {v : ArmyEntry}
    (h : k' ∈ acc.map Prod.fst) : k' ∈ (objAssign acc k v).map Prod.fst := by
  rw [objAssign_keys]
  by_cases hk : acc.any (fun p => p.1 = k) = true
  · rw [if_pos hk]; exact h
  · rw [if_neg hk]; rw [List.mem_append]; exact Or.inl h

theorem objAssign_keys_nodup {acc : List (String × ArmyEntry)} {k : String} {v : ArmyEntry}
    (h : (acc.map Prod.fst).Nodup) : ((objAssign acc k v).map Prod.fst).Nodup := by
  rw [objAssign_keys]
  by_cases hk : acc.any (fun p => p.1 = k) = true
  · rw [if_pos hk]; exact h
  · rw [if_neg hk]
    rw [List.nodup_append]
    refine ⟨h, List.nodup_singleton k, ?_⟩
    intro a ha hb
    rw [List.mem_singleton] at hb
    subst hb
    rcases List.mem_map.mp ha with ⟨p, hp, hpk⟩
    rw [List.any_eq_true] at hk
    exact hk ⟨p, hp, decide_eq_true hpk⟩

theorem notNullish_of_unit_ok {u : JSValue} {rm : RulesMap} {ns : List String}
    (h : getUnitCompNotes u rm = .ok ns) : notNullish u = true := by
  cases u with
  | null =>
      have hnu : getUnitCompNotes .null rm = .error () := rfl
      rw [hnu] at h
      exact absurd h (by simp)
  | undef =>
      have hnu : getUnitCompNotes .undef rm = .error () := rfl
      rw [hnu] at h
      exact absurd h (by simp)
  | bool b => rfl
  | num n => rfl
  | str s => rfl
  | arr xs => rfl
  | obj fs => rfl

theorem ne_nil_of_isEmpty_false {ns : List String} (h : ns.isEmpty = false) : ns ≠ [] := by
  intro hnil
  rw [hnil] at h
  exact Bool.noConfusion h

theorem armyNotesGo_spec (rm : RulesMap) :
    ∀ (units : List JSValue) (i : Nat) (acc res : List (String × ArmyEntry)),
      armyNotesGo rm i units acc = .ok res →
      (∀ p ∈ res, p ∈ acc ∨ ∃ j, ∃ hj : j < units.length, ∃ ns,
          getUnitCompNotes (units.get ⟨j, hj⟩) rm = .ok ns ∧ ns ≠ [] ∧
          p.1 = keyOfD (units.get ⟨j, hj⟩) (i + j) ∧
          p.2 = (ns, generateCompNotesHTML ns)) ∧
      (∀ k, k ∈ acc.map Prod.fst → k ∈ res.map Prod.fst) ∧
      (∀ j (hj : j < units.length) ns,
          getUnitCompNotes (units.get ⟨j, hj⟩) rm = .ok ns → ns ≠ [] →
          keyOfD (units.get ⟨j, hj⟩) (i + j) ∈ res.map Prod.fst) ∧
      ((acc.map Prod.fst).Nodup → (res.map Prod.fst).Nodup) := by
  intro units
  induction units with
  | nil =>
      intro i acc res h
      unfold armyNotesGo at h
      injection h with h
      subst h
      refine ⟨fun p hp => Or.inl hp, fun k hk => hk, ?_, fun h => h⟩
      intro j hj
      exact absurd hj (by simp)
  | cons u us ih =>
    intro i acc res h
    unfold armyNotesGo at h
    obtain ⟨ns, hns, h⟩ := exceptBind_ok_inv h
    have hnn : notNullish u = true := notNullish_of_unit_ok hns
    cases hE : ns.isEmpty with
    | true =>
        rw [if_pos hE] at h
        have hnsnil : ns = [] := by
          cases ns with
          | nil => rfl
          | cons a l => exact absurd hE (by simp)
        obtain ⟨ih1, ih2, ih3, ih4⟩ := ih (i + 1) acc res h
        refine ⟨?_, ih2, ?_, ih4⟩
        · intro p hp
          rcases ih1 p hp with hin | ⟨j, hj, ns', hok, hne, hk, he⟩
          · exact Or.inl hin
          · refine Or.inr ⟨j + 1, by simpa using hj, ns', ?_, hne, ?_, he⟩
            · exact hok
            · rw [hk]
              have : i + 1 + j = i + (j + 1) := by omega
              rw [this]
              rfl
        · intro j hj ns0 hok hne
          cases j with
          | zero =>
              have hu : (u :: us).get ⟨0, hj⟩ = u := rfl
              rw [hu] at hok
              rw [hns] at hok
              injection hok with hok
              subst hok
              exact absurd hnsnil hne
          | succ j =>
              have hj' : j < us.length := by simpa using hj
              have hget : (u :: us).get ⟨j + 1, hj⟩ = us.get ⟨j, hj'⟩ := rfl
              rw [hget] at hok
              have := ih3 j hj' ns0 hok hne
              have harith : i + 1 + j = i + (j + 1) := by omega
              rw [harith] at this
              rw [hget]
              exact this
    | false =>
        rw [if_neg (by simp [hE])] at h
        obtain ⟨idv, hidv, h⟩ := exceptBind_ok_inv h
        rw [jsGet_notNullish hnn] at hidv
        injection hidv with hidv
        subst hidv
        have h' : armyNotesGo rm (i + 1) us
            (objAssign acc (keyOfD u i) (ns, generateCompNotesHTML ns)) = .ok res := h
        obtain ⟨ih1, ih2, ih3, ih4⟩ := ih (i + 1)
          (objAssign acc (keyOfD u i) (ns, generateCompNotesHTML ns)) res h'
        have hnenil : ns ≠ [] := ne_nil_of_isEmpty_false hE
        refine ⟨?_, ?_, ?_, ?_⟩
        · intro p hp
          rcases ih1 p hp with hin | ⟨j, hj, ns', hok, hne, hk, he⟩
          · rcases objAssign_mem hin with hin | rfl
            · exact Or.inl hin
            · refine Or.inr ⟨0, by simp, ns, hns, hnenil, ?_, rfl⟩
              show keyOfD u i = keyOfD ((u :: us).get ⟨0, by simp⟩) (i + 0)
              rfl
          · refine Or.inr ⟨j + 1, by simpa using hj, ns', hok, hne, ?_, he⟩
            rw [hk]
            have : i + 1 + j = i + (j + 1) := by omega
            rw [this]
            rfl
        · intro k hk
          exact ih2 k (objAssign_keys_mono hk)
        · intro j hj ns0 hok hne
          cases j with
          | zero =>
              have : keyOfD ((u :: us).get ⟨0, hj⟩) (i + 0) = keyOfD u i := rfl
              rw [this]
              exact ih2 _ objAssign_keys_self
          | succ j =>
              have hj' : j < us.length := by simpa using hj
              have hget : (u :: us).get ⟨j + 1, hj⟩ = us.get ⟨j, hj'⟩ := rfl
              rw [hget] at hok
              have := ih3 j hj' ns0 hok hne
              have harith : i + 1 + j = i + (j + 1) := by omega
              rw [harith] at this
              rw [hget]
              exact this
        · intro hnd
          exact ih4 (objAssign_keys_nodup hnd)

def uFalsyId : JSValue := .obj [("id", .str ""), ("name", .str "Griffon")]

/-- C7 counterexample: a unit whose `id` field is present but falsy (the
empty string) is keyed by its positional index, not by its `id` — the
code computes `unit.id || index`. -/
theorem armyCompNotes_falsy_id_uses_index :
    getFieldD uFalsyId "id" = .str "" ∧
      getArmyCompNotes (.arr [uFalsyId]) dictEx =
        .ok [("0", (["Counts as Rare choice"],
          generateCompNotesHTML ["Counts as Rare choice"]))] ∧
      ("0" : String) ≠ "" := by
  refine ⟨rfl, ?_, by decide⟩
  have h1 : getUnitCompNotes (.obj [("id", .str ""), ("name", .str "Griffon")]) dictEx =
      .ok ["Counts as Rare choice"] := by decide
  have h2 : jsToStr (.num 0) = "0" := by simp only [jsToStr]; rfl
  simp [getArmyCompNotes, armyNotesGo, h1, h2, uFalsyId, jsGet, getFieldD, jsTruthy,
    objAssign, Bind.bind, Except.bind]

/-- C7 (amended): `getArmyCompNotes` maps units to their notes and
rendered fragment under the key `unit.id` when present **and truthy**,
else the positional index (coerced to a property-key string): every entry
of the result is the notes/fragment of some unit with non-empty notes
stored under that unit's key, every unit with non-empty notes has its key
in the result, the keys are unique, and no key for a unit with an empty
note set ever appears. -/
theorem armyCompNotes_keys_characterization (units : List JSValue) (rm : RulesMap)
    (res : List (String × ArmyEntry)) (h : getArmyCompNotes (.arr units) rm = .ok res) :
    (∀ p ∈ res, ∃ j, ∃ hj : j < units.length, ∃ ns,
        getUnitCompNotes (units.get ⟨j, hj⟩) rm = .ok ns ∧ ns ≠ [] ∧
        p.1 = keyOfD (units.get ⟨j, hj⟩) j ∧ p.2 = (ns, generateCompNotesHTML ns)) ∧
      (∀ j (hj : j < units.length) ns,
        getUnitCompNotes (units.get ⟨j, hj⟩) rm = .ok ns → ns ≠ [] →
        keyOfD (units.get ⟨j, hj⟩) j ∈ res.map Prod.fst) ∧
      (res.map Prod.fst).Nodup := by
  have h' : armyNotesGo rm 0 units [] = .ok res := h
  obtain ⟨s1, s2, s3, s4⟩ := armyNotesGo_spec rm units 0 [] res h'
  refine ⟨?_, ?_, s4 (by simp)⟩
  · intro p hp
    rcases s1 p hp with hin | ⟨j, hj, ns, hok, hne, hk, he⟩
    · simp at hin
    · refine ⟨j, hj, ns, hok, hne, ?_, he⟩
      rw [hk, Nat.zero_add]
  · intro j hj ns hok hne
    have := s3 j hj ns hok hne
    rwa [Nat.zero_add] at this

def resC7 : List (String × ArmyEntry) :=
  [("0", (["Counts as Rare choice"], generateCompNotesHTML ["Counts as Rare choice"]))]

theorem armyCompNotes_keys_characterization_witness :
    (∀ p ∈ resC7, ∃ j, ∃ hj : j < [uFalsyId].length, ∃ ns,
        getUnitCompNotes ([uFalsyId].get ⟨j, hj⟩) dictEx = .ok ns ∧ ns ≠ [] ∧
        p.1 = keyOfD ([uFalsyId].get ⟨j, hj⟩) j ∧ p.2 = (ns, generateCompNotesHTML ns)) ∧
      (∀ j (hj : j < [uFalsyId].length) ns,
        getUnitCompNotes ([uFalsyId].get ⟨j, hj⟩) dictEx = .ok ns → ns ≠ [] →
        keyOfD ([uFalsyId].get ⟨j, hj⟩) j ∈ resC7.map Prod.fst) ∧
      (resC7.map Prod.fst).Nodup :=
  armyCompNotes_keys_characterization [uFalsyId] dictEx resC7 (by
    have h1 : getUnitCompNotes (.obj [("id", .str ""), ("name", .str "Griffon")]) dictEx =
        .ok ["Counts as Rare choice"] := by decide
    have h2 : jsToStr (.num 0) = "0" := by simp only [jsToStr]; rfl
    simp [getArmyCompNotes, armyNotesGo, h1, h2, uFalsyId, resC7, jsGet, getFieldD, jsTruthy,
      objAssign, Bind.bind, Except.bind])

theorem lookupNote_empty_note (pre post : RulesMap) (k : String) :
    lookupNote (pre ++ (k, ⟨some ""⟩) :: post) = lookupNote (pre ++ (k, ⟨none⟩) :: post) := by
  funext q
  unfold lookupNote lookupEntry
  induction pre with
  | nil =>
      by_cases hk : k = q
      · simp [List.find?, hk]
      · simp [List.find?, hk]
  | cons p pre ih =>
      by_cases hp : p.1 = q
      · simp [List.find?, hp]
      · simpa [List.find?, hp] using ih

theorem getUnitCompNotes_look_congr {rm1 rm2 : RulesMap}
    (h : lookupNote rm1 = lookupNote rm2) (u : JSValue) :
    getUnitCompNotes u rm1 = getUnitCompNotes u rm2 := by
  unfold getUnitCompNotes getUnitNoteTrace
  rw [h]


set_option maxHeartbeats 1000000 in
theorem armyNotesGo_look_congr {rm1 rm2 : RulesMap}
    (h : lookupNote rm1 = lookupNote rm2) :
    ∀ (units : List JSValue) (i : Nat) (acc : List (String × ArmyEntry)),
      armyNotesGo rm1 i units acc = armyNotesGo rm2 i units acc := by
  intro units
  induction units with
  | nil => intro i acc; rfl
  | cons u us ih =>
    intro i acc
    unfold armyNotesGo
    rw [getUnitCompNotes_look_congr h u]
    cases hns : getUnitCompNotes u rm2 with
    | error e => simp only [Bind.bind, Except.bind]
    | ok ns =>
        rw [exceptBind_ok, exceptBind_ok]
        by_cases hE : ns.isEmpty = true
        · rw [if_pos hE, if_pos hE]
          exact ih (i + 1) acc
        · rw [if_neg hE, if_neg hE]
          cases hid : jsGet u "id" with
          | error e => simp only [Bind.bind, Except.bind]
          | ok idv =>
              rw [exceptBind_ok, exceptBind_ok]
              exact ih (i + 1) _

theorem allArmyGo_look_congr {rm1 rm2 : RulesMap}
    (h : lookupNote rm1 = lookupNote rm2) :
    ∀ (units : List JSValue) (acc : List String),
      allArmyGo rm1 units acc = allArmyGo rm2 units acc := by
  intro units
  induction units with
  | nil => intro acc; rfl
  | cons u us ih =>
    intro acc
    unfold allArmyGo
    rw [getUnitCompNotes_look_congr h u]
    cases hns : getUnitCompNotes u rm2 with
    | error e => simp only [Bind.bind, Except.bind]
    | ok ns =>
        rw [exceptBind_ok, exceptBind_ok]
        exact ih _

theorem getArmyCompNotes_look_congr {rm1 rm2 : RulesMap}
    (h : lookupNote rm1 = lookupNote rm2) (army : JSValue) :
    getArmyCompNotes army rm1 = getArmyCompNotes army rm2 := by
  cases army with
  | arr units =>
      show armyNotesGo rm1 0 units [] = armyNotesGo rm2 0 units []
      exact armyNotesGo_look_congr h units 0 []
  | undef => rfl
  | null => rfl
  | bool b => rfl
  | num n => rfl
  | str s => rfl
  | obj fs => rfl

theorem getAllArmyCompNotes_look_congr {rm1 rm2 : RulesMap}
    (h : lookupNote rm1 = lookupNote rm2) (army : JSValue) :
    getAllArmyCompNotes army rm1 = getAllArmyCompNotes army rm2 := by
  cases army with
  | arr units =>
      show Except.map (List.insertionSort jsStrLe) (allArmyGo rm1 units []) =
        Except.map (List.insertionSort jsStrLe) (allArmyGo rm2 units [])
      rw [allArmyGo_look_congr h units []]
  | undef => rfl
  | null => rfl
  | bool b => rfl
  | num n => rfl
  | str s => rfl
  | obj fs => rfl

theorem getArmyCompNotes_no_empty {army : List JSValue} {rm : RulesMap}
    {res : List (String × ArmyEntry)} (h : getArmyCompNotes (.arr army) rm = .ok res)
    {p : String × ArmyEntry} (hp : p ∈ res) : "" ∉ p.2.1 := by
  have h' : armyNotesGo rm 0 army [] = .ok res := h
  obtain ⟨s1, _, _, _⟩ := armyNotesGo_spec rm army 0 [] res h'
  rcases s1 p hp with hin | ⟨j, hj, ns, hok, _, _, he⟩
  · simp at hin
  · rw [he]
    exact getUnitCompNotes_no_empty hok

theorem getAllArmyCompNotes_no_empty {army : List JSValue} {rm : RulesMap}
    {l : List String} (h : getAllArmyCompNotes (.arr army) rm = .ok l) : "" ∉ l := by
  have h' : Except.map (List.insertionSort jsStrLe) (allArmyGo rm army []) = .ok l := h
  rcases exceptMap_ok.mp h' with ⟨r, hr, rfl⟩
  intro hmem
  rw [(List.perm_insertionSort jsStrLe r).mem_iff] at hmem
  rcases (allArmyGo_mem rm army [] r hr "").mp hmem with hin | ⟨u, _, ns, hok, hm⟩
  · simp at hin
  · exact getUnitCompNotes_no_empty hok hm

/-- C10: a dictionary entry whose composition note is the empty string
behaves exactly like an entry with no note at all (replacing one by the
other changes no result of the collector or of either batch aggregate),
and the empty string never occurs in the output of `getUnitCompNotes`,
`getArmyCompNotes` or `getAllArmyCompNotes`. -/
theorem empty_note_contributes_nothing (pre post : RulesMap) (k : String) :
    (∀ u, getUnitCompNotes u (pre ++ (k, ⟨some ""⟩) :: post) =
        getUnitCompNotes u (pre ++ (k, ⟨none⟩) :: post)) ∧
      (∀ army, getArmyCompNotes army (pre ++ (k, ⟨some ""⟩) :: post) =
        getArmyCompNotes army (pre ++ (k, ⟨none⟩) :: post)) ∧
      (∀ army, getAllArmyCompNotes army (pre ++ (k, ⟨some ""⟩) :: post) =
        getAllArmyCompNotes army (pre ++ (k, ⟨none⟩) :: post)) ∧
      (∀ u rm l, getUnitCompNotes u rm = .ok l → "" ∉ l) ∧
      (∀ (army : List JSValue) rm res, getArmyCompNotes (.arr army) rm = .ok res →
        ∀ p ∈ res, "" ∉ p.2.1) ∧
      (∀ (army : List JSValue) rm l, getAllArmyCompNotes (.arr army) rm = .ok l → "" ∉ l) :=
  ⟨fun u => getUnitCompNotes_look_congr (lookupNote_empty_note pre post k) u,
   fun army => getArmyCompNotes_look_congr (lookupNote_empty_note pre post k) army,
   fun army => getAllArmyCompNotes_look_congr (lookupNote_empty_note pre post k) army,
   fun _ _ _ h => getUnitCompNotes_no_empty h,
   fun _ _ _ h p hp => getArmyCompNotes_no_empty h hp,
   fun _ _ _ h => getAllArmyCompNotes_no_empty h⟩

theorem empty_note_contributes_nothing_witness :
    (getUnitCompNotes uLangName ([] ++ ("griffon", ⟨some ""⟩) :: []) =
        getUnitCompNotes uLangName ([] ++ ("griffon", ⟨none⟩) :: [])) ∧
      "" ∉ ["Counts as Rare choice"] :=
  ⟨(empty_note_contributes_nothing [] [] "griffon").1 uLangName,
   (empty_note_contributes_nothing [] [] "griffon").2.2.2.1 uLangName dictEx
     ["Counts as Rare choice"] (by decide)⟩
